import Mathlib

/-!
Verification of the PyCrypto library (a from-scratch AES / RSA / SHA-256
implementation) against its natural-language specification.

The Python sources are shallowly embedded:
- Python `bytes` values become `List Nat` with entries below 256,
- Python `int` becomes `Nat` where the code only meets non-negative values
  (modular arithmetic, byte conversion) and `Int` where the code is also
  defined on negative inputs (`egcd`, `mod_inverse`); Python `%` and `//`
  on `Int` are floor operations, i.e. `Int.fmod` and `Int.fdiv`,
- Python loops become fuel-based structural recursions (with the fuel chosen
  provably large enough), keeping every definition kernel-computable,
- code paths that raise exceptions return `Option`/`Except` values.
-/

/-! ## Byte-string helpers (rsa.py `_bytes_to_int` / `_int_to_bytes`) -/

/-- Big-endian conversion of a byte string to a natural number, mirroring
`_bytes_to_int` in `rsa.py` (`int.from_bytes(data, 'big')`). -/
def bytesToInt (data : List Nat) : Nat :=
  data.foldl (fun acc b => acc * 256 + b) 0

/-- Big-endian serialization of `x` into exactly `len` bytes, mirroring
`_int_to_bytes` in `rsa.py` (`integer.to_bytes(n_bytes, 'big')`). The Python
call raises `OverflowError` when `x` does not fit into `len` bytes; every
caller in this file checks `x < 2 ^ (8 * len)` before using the result, the
way the Python callers rely on the exception. -/
def intToBytes (x : Nat) : Nat → List Nat
  | 0 => []
  | len + 1 => (x / 2 ^ (8 * len) % 256) :: intToBytes x len

/-- Strips leading zero bytes, mirroring `.lstrip(b'\x00')` in `rsa.py`. -/
def lstripZeros (l : List Nat) : List Nat :=
  l.dropWhile (fun b => b == 0)

/-! ## math_utils.py -/

/-- Loop body of `pow_mod`: state is `(res, a, b)`, the modulus is `m`.
The fuel argument only bounds the iteration count; `pow_mod` passes `b + 1`,
which is more than the number of halvings of `b` down to `0`. -/
def powModGo (m : Nat) : Nat → Nat → Nat → Nat → Nat
  | 0, res, _, _ => res
  | fuel + 1, res, a, b =>
    if b = 0 then res
    else powModGo m fuel (if b % 2 = 1 then res * a % m else res) (a * a % m) (b / 2)

/-- `pow_mod(a, b, m)` from `math_utils.py`: binary (square-and-multiply)
modular exponentiation; `res = 1`, then `a %= m` and the while loop. -/
def pow_mod (a b m : Nat) : Nat :=
  powModGo m (b + 1) 1 (a % m) b

/-- The while loop of `_is_prime_miller_rabin` writing `n - 1 = 2^r * d`:
state is `(r, d)`, halving `d` while it is even. Fuel-based; callers pass
the initial `d`, which bounds the number of halvings. -/
def splitTwos : Nat → Nat → Nat → Nat × Nat
  | 0, r, d => (r, d)
  | fuel + 1, r, d => if d % 2 = 0 then splitTwos fuel (r + 1) (d / 2) else (r, d)

/-- The inner squaring loop of `_is_prime_miller_rabin`: square `x` up to
`j` times, returning `true` as soon as the square equals `n - 1` (the
`break`), and `false` when the loop completes (the `for ... else` branch). -/
def squareLoop (n : Nat) : Nat → Nat → Bool
  | 0, _ => false
  | j + 1, x =>
    let x2 := pow_mod x 2 n
    if x2 = n - 1 then true else squareLoop n j x2

/-- One round of `_is_prime_miller_rabin` for the witness `a`, with
`n - 1 = 2^r * d`: `true` when the witness is consistent with primality. -/
def millerRabinWitness (n d r a : Nat) : Bool :=
  let x := pow_mod a d n
  if x = 1 ∨ x = n - 1 then true
  else squareLoop n (r - 1) x

/-- `_is_prime_miller_rabin(n, k)` from `math_utils.py` with the random
source injected: `rand i` models the i-th draw of `random.randrange(2, n-2)`.
The Python function returns `False` as soon as one round fails, which is the
same value `List.all` computes. -/
def is_probably_prime (n : Nat) (k : Nat) (rand : Nat → Nat) : Bool :=
  if n = 2 ∨ n = 3 then true
  else if n < 5 ∨ n % 2 = 0 then false
  else
    let rd := splitTwos (n - 1) 0 (n - 1)
    (List.range k).all (fun i => millerRabinWitness n rd.2 rd.1 (rand i))

/-- The recursion of `egcd` from `math_utils.py`, fuel-based. Python `%` and
`//` on possibly-negative ints are floor mod and floor division, `Int.fmod`
and `Int.fdiv`. The unpacking `g, y, x = egcd(b % a, a)` followed by
`return (g, x - (b // a) * y, y)` is reproduced through the projections of
the returned triple `(g, y, x)`. -/
def egcdGo : Nat → Int → Int → Int × Int × Int
  | 0, _, b => (b, 0, 1)
  | fuel + 1, a, b =>
    if a = 0 then (b, 0, 1)
    else
      let t := egcdGo fuel (Int.fmod b a) a
      (t.1, t.2.2 - Int.fdiv b a * t.2.1, t.2.1)

/-- `egcd(a, b)` from `math_utils.py`. The fuel `a.natAbs + 1` dominates the
recursion depth, since the first argument's absolute value strictly
decreases on every recursive call. -/
def egcd (a b : Int) : Int × Int × Int :=
  egcdGo (a.natAbs + 1) a b

/-- `mod_inverse(a, m)` from `math_utils.py`: `none` models the raised
`ValueError` (`NoModularInverse`) when the gcd returned by `egcd` is not 1;
otherwise the result is `x % m` with Python (floor) modulo. -/
def mod_inverse (a m : Int) : Option Int :=
  let t := egcd a m
  if t.1 ≠ 1 then none else some (Int.fmod t.2.1 m)

/-! ## rsa.py -/

/-- Halving loop computing the bit length; fuel-based so that it reduces in
the kernel (callers pass the argument itself as fuel, which dominates the
number of halvings). -/
def bitLenGo : Nat → Nat → Nat
  | 0, _ => 0
  | fuel + 1, n => if n = 0 then 0 else bitLenGo fuel (n / 2) + 1

/-- Python's `int.bit_length()` for a natural number: the number of binary
digits, with `bitLength 0 = 0`. -/
def bitLength (n : Nat) : Nat :=
  bitLenGo n n

deriving instance DecidableEq for Except

namespace Rsa

/-- The exceptions `encrypt`/`decrypt` in `rsa.py` can raise: the explicit
`ValueError` for an oversized message, and `OverflowError` escaping from
`int.to_bytes`. -/
inductive RsaError where
  | messageTooLarge : RsaError
  | overflowError : RsaError
deriving DecidableEq

/-- `math.ceil(n.bit_length() / 8)` from `rsa.py`; the ceiling of `s / 8`
is `(s + 7) / 8`. -/
def nBytes (n : Nat) : Nat :=
  (bitLength n + 7) / 8

/-- `encrypt(public_key, message)` from `rsa.py`. The `m_int >= n` check
raises the message-too-large `ValueError`; the final `_int_to_bytes` raises
`OverflowError` when the ciphertext integer needs more than `nBytes n`
bytes. -/
def encrypt (publicKey : Nat × Nat) (message : List Nat) : Except RsaError (List Nat) :=
  let e := publicKey.1
  let n := publicKey.2
  let n_bytes := nBytes n
  let m_int := bytesToInt message
  if n ≤ m_int then .error .messageTooLarge
  else
    let c_int := pow_mod m_int e n
    if c_int < 2 ^ (8 * n_bytes) then .ok (intToBytes c_int n_bytes)
    else .error .overflowError

/-- `decrypt(private_key, ciphertext)` from `rsa.py`: `m_int.to_bytes(n_bytes)`
inside `try`, the `except OverflowError` fallback retrying with
`n_bytes + 1`, and leading zero bytes stripped from the result. An
`OverflowError` raised by the fallback itself would escape, hence the final
error case. -/
def decrypt (privateKey : Nat × Nat) (ciphertext : List Nat) : Except RsaError (List Nat) :=
  let d := privateKey.1
  let n := privateKey.2
  let n_bytes := nBytes n
  let c_int := bytesToInt ciphertext
  let m_int := pow_mod c_int d n
  if m_int < 2 ^ (8 * n_bytes) then .ok (lstripZeros (intToBytes m_int n_bytes))
  else if m_int < 2 ^ (8 * (n_bytes + 1)) then
    .ok (lstripZeros (intToBytes m_int (n_bytes + 1)))
  else .error .overflowError

end Rsa

/-! ## sha256.py -/

namespace Sha256

/-- The round-constant table `K` from `sha256.py` (the source writes these
64 words in hex; they are rendered in decimal here). -/
def K : List Nat := [
  1116352408, 1899447441, 3049323471, 3921009573, 961987163, 1508970993,
  2453635748, 2870763221, 3624381080, 310598401, 607225278, 1426881987,
  1925078388, 2162078206, 2614888103, 3248222580, 3835390401, 4022224774,
  264347078, 604807628, 770255983, 1249150122, 1555081692, 1996064986,
  2554220882, 2821834349, 2952996808, 3210313671, 3336571891, 3584528711,
  113926993, 338241895, 666307205, 773529912, 1294757372, 1396182291,
  1695183700, 1986661051, 2177026350, 2456956037, 2730485921, 2820302411,
  3259730800, 3345764771, 3516065817, 3600352804, 4094571909, 275423344,
  430227734, 506948616, 659060556, 883997877, 958139571, 1322822218,
  1537002063, 1747873779, 1955562222, 2024104815, 2227730452, 2361852424,
  2428436474, 2756734187, 3204031479, 3329325298]

/-- The initial hash state `H_INIT` from `sha256.py`, in decimal. -/
def H_INIT : List Nat := [
  1779033703, 3144134277, 1013904242, 2773480762,
  1359893119, 2600822924, 528734635, 1541459225]

/-- `_rotr(x, n)` from `sha256.py` at the default width 32. -/
def rotr (x n : Nat) : Nat :=
  ((x >>> n) ||| (x <<< (32 - n))) &&& 0xFFFFFFFF

/-- `_ch(x, y, z)` from `sha256.py`: `(x & y) ^ (~x & z)`. For the 32-bit
values the hash state holds, Python's infinite two's complement `~x & z`
equals `(x XOR 0xFFFFFFFF) & z`. -/
def ch (x y z : Nat) : Nat :=
  (x &&& y) ^^^ ((x ^^^ 0xFFFFFFFF) &&& z)

/-- `_maj(x, y, z)` from `sha256.py`. -/
def maj (x y z : Nat) : Nat :=
  (x &&& y) ^^^ (x &&& z) ^^^ (y &&& z)

/-- `_sigma0` from `sha256.py`. -/
def sigma0 (x : Nat) : Nat := rotr x 2 ^^^ rotr x 13 ^^^ rotr x 22

/-- `_sigma1` from `sha256.py`. -/
def sigma1 (x : Nat) : Nat := rotr x 6 ^^^ rotr x 11 ^^^ rotr x 25

/-- `_gamma0` from `sha256.py`. -/
def gamma0 (x : Nat) : Nat := rotr x 7 ^^^ rotr x 18 ^^^ (x >>> 3)

/-- `_gamma1` from `sha256.py`. -/
def gamma1 (x : Nat) : Nat := rotr x 17 ^^^ rotr x 19 ^^^ (x >>> 10)

/-- `_add(a, b)` from `sha256.py`: addition modulo `2^32` via masking. -/
def add32 (a b : Nat) : Nat :=
  (a + b) &&& 0xFFFFFFFF

/-- `_padding(message)` from `sha256.py`. The zero-byte count
`(56 - (len(padded) % 64)) % 64` uses Python modulo on a possibly negative
argument, i.e. `Int.emod` (which Lean writes `%` on `Int`).
`struct.pack('>Q', bits)` raises `struct.error` when the bit length does not
fit in 64 bits, modelled by `none`. -/
def padding (message : List Nat) : Option (List Nat) :=
  let original_len_bits := message.length * 8
  if original_len_bits < 2 ^ 64 then
    let padded := message ++ [0x80]
    let bytes_to_add := ((56 - (padded.length : Int) % 64) % 64).toNat
    some (padded ++ List.replicate bytes_to_add 0 ++ intToBytes original_len_bits 8)
  else none

/-- The message-schedule extension loop of `_process_chunk`: starting from
the 16 words of the chunk, append `fuel` further words; step `i` (the
current length) reads `w[i-15]`, `w[i-2]`, `w[i-16]`, `w[i-7]`. -/
def extendW : Nat → List Nat → List Nat
  | 0, w => w
  | fuel + 1, w =>
    let i := w.length
    let s0 := gamma0 (w.getD (i - 15) 0)
    let s1 := gamma1 (w.getD (i - 2) 0)
    extendW fuel (w ++ [add32 (add32 (add32 (w.getD (i - 16) 0) s0) (w.getD (i - 7) 0)) s1])

/-- The 64-round compression loop of `_process_chunk` over the zipped list
of round constants and schedule words, carrying the working variables
`(a, b, c, d, e, f, g, h0)`. -/
def compress : List (Nat × Nat) → Nat × Nat × Nat × Nat × Nat × Nat × Nat × Nat →
    Nat × Nat × Nat × Nat × Nat × Nat × Nat × Nat
  | [], st => st
  | (ki, wi) :: rest, (a, b, c, d, e, f, g, h0) =>
    let S1 := sigma1 e
    let chv := ch e f g
    let temp1 := add32 (add32 (add32 (add32 h0 S1) chv) ki) wi
    let S0 := sigma0 a
    let majv := maj a b c
    let temp2 := add32 S0 majv
    compress rest (add32 temp1 temp2, a, b, c, add32 d temp1, e, f, g)

/-- `_process_chunk(chunk, h)` from `sha256.py`: load 16 big-endian words,
extend the schedule to 64 words, run the compression loop, and add the
working variables back into the hash state. -/
def processChunk (chunk h : List Nat) : List Nat :=
  let w16 := (List.range 16).map (fun i => bytesToInt ((chunk.drop (i * 4)).take 4))
  let w := extendW 48 w16
  let t := compress (K.zip w)
    (h.getD 0 0, h.getD 1 0, h.getD 2 0, h.getD 3 0,
     h.getD 4 0, h.getD 5 0, h.getD 6 0, h.getD 7 0)
  [add32 (h.getD 0 0) t.1,
   add32 (h.getD 1 0) t.2.1,
   add32 (h.getD 2 0) t.2.2.1,
   add32 (h.getD 3 0) t.2.2.2.1,
   add32 (h.getD 4 0) t.2.2.2.2.1,
   add32 (h.getD 5 0) t.2.2.2.2.2.1,
   add32 (h.getD 6 0) t.2.2.2.2.2.2.1,
   add32 (h.getD 7 0) t.2.2.2.2.2.2.2]

/-- The chunk loop of `hash`: `for i in range(0, len(padded_message), 64)`.
Fuel-based; callers pass the padded length, which bounds the chunk count. -/
def processChunks : Nat → List Nat → List Nat → List Nat
  | 0, h, _ => h
  | fuel + 1, h, rest =>
    if rest.length = 0 then h
    else processChunks fuel (processChunk (rest.take 64) h) (rest.drop 64)

/-- One lowercase hex digit. -/
def hexChar (n : Nat) : Char :=
  if n < 10 then Char.ofNat (48 + n) else Char.ofNat (87 + n)

/-- The f-string `f"{val:08x}"` from `hash` for a 32-bit value: exactly
eight lowercase hex digits, most significant first. -/
def toHex8 (v : Nat) : String :=
  String.mk ((List.range 8).map (fun i => hexChar (v / 16 ^ (7 - i) % 16)))

/-- `hash(message)` from `sha256.py`, over the UTF-8 bytes of the input
string (the empty string encodes to `[]`): pad, process 64-byte chunks,
concatenate the 8 state words as hex. `none` only when `_padding` fails. -/
def hash (message_bytes : List Nat) : Option String :=
  (padding message_bytes).map (fun padded =>
    let h := processChunks padded.length H_INIT padded
    String.join (h.map toHex8))

end Sha256

/-! ## aes.py

`aes.py` imports `S_BOX`, `INV_S_BOX`, `RCON` and `gmul` from
`src.aes_common`, a module of this repository whose file is not present in
the sources. Those four are modelled from the specification; everything
else below is translated from `aes.py` itself. -/

namespace Aes

/-- Modelled from the spec: the fixed 256-entry substitution table (S-box)
of the public AES specification, owned by the missing module
`src/aes_common.py` (imported by `aes.py` but absent from the repository
sources). The spec describes it as "a fixed 256-entry lookup table
providing the cipher's nonlinear byte substitution". -/
def S_BOX : List Nat := [
  0x63, 0x7c, 0x77, 0x7b, 0xf2, 0x6b, 0x6f, 0xc5, 0x30, 0x01, 0x67, 0x2b, 0xfe, 0xd7, 0xab, 0x76,
  0xca, 0x82, 0xc9, 0x7d, 0xfa, 0x59, 0x47, 0xf0, 0xad, 0xd4, 0xa2, 0xaf, 0x9c, 0xa4, 0x72, 0xc0,
  0xb7, 0xfd, 0x93, 0x26, 0x36, 0x3f, 0xf7, 0xcc, 0x34, 0xa5, 0xe5, 0xf1, 0x71, 0xd8, 0x31, 0x15,
  0x04, 0xc7, 0x23, 0xc3, 0x18, 0x96, 0x05, 0x9a, 0x07, 0x12, 0x80, 0xe2, 0xeb, 0x27, 0xb2, 0x75,
  0x09, 0x83, 0x2c, 0x1a, 0x1b, 0x6e, 0x5a, 0xa0, 0x52, 0x3b, 0xd6, 0xb3, 0x29, 0xe3, 0x2f, 0x84,
  0x53, 0xd1, 0x00, 0xed, 0x20, 0xfc, 0xb1, 0x5b, 0x6a, 0xcb, 0xbe, 0x39, 0x4a, 0x4c, 0x58, 0xcf,
  0xd0, 0xef, 0xaa, 0xfb, 0x43, 0x4d, 0x33, 0x85, 0x45, 0xf9, 0x02, 0x7f, 0x50, 0x3c, 0x9f, 0xa8,
  0x51, 0xa3, 0x40, 0x8f, 0x92, 0x9d, 0x38, 0xf5, 0xbc, 0xb6, 0xda, 0x21, 0x10, 0xff, 0xf3, 0xd2,
  0xcd, 0x0c, 0x13, 0xec, 0x5f, 0x97, 0x44, 0x17, 0xc4, 0xa7, 0x7e, 0x3d, 0x64, 0x5d, 0x19, 0x73,
  0x60, 0x81, 0x4f, 0xdc, 0x22, 0x2a, 0x90, 0x88, 0x46, 0xee, 0xb8, 0x14, 0xde, 0x5e, 0x0b, 0xdb,
  0xe0, 0x32, 0x3a, 0x0a, 0x49, 0x06, 0x24, 0x5c, 0xc2, 0xd3, 0xac, 0x62, 0x91, 0x95, 0xe4, 0x79,
  0xe7, 0xc8, 0x37, 0x6d, 0x8d, 0xd5, 0x4e, 0xa9, 0x6c, 0x56, 0xf4, 0xea, 0x65, 0x7a, 0xae, 0x08,
  0xba, 0x78, 0x25, 0x2e, 0x1c, 0xa6, 0xb4, 0xc6, 0xe8, 0xdd, 0x74, 0x1f, 0x4b, 0xbd, 0x8b, 0x8a,
  0x70, 0x3e, 0xb5, 0x66, 0x48, 0x03, 0xf6, 0x0e, 0x61, 0x35, 0x57, 0xb9, 0x86, 0xc1, 0x1d, 0x9e,
  0xe1, 0xf8, 0x98, 0x11, 0x69, 0xd9, 0x8e, 0x94, 0x9b, 0x1e, 0x87, 0xe9, 0xce, 0x55, 0x28, 0xdf,
  0x8c, 0xa1, 0x89, 0x0d, 0xbf, 0xe6, 0x42, 0x68, 0x41, 0x99, 0x2d, 0x0f, 0xb0, 0x54, 0xbb, 0x16]

/-- Modelled from the spec: the inverse substitution table of
`src/aes_common.py`; the spec says "its inverse undoes the substitution",
so it is defined as the positional inverse of `S_BOX`. -/
def INV_S_BOX : List Nat :=
  (List.range 256).map (fun y => S_BOX.findIdx (fun b => b == y))

/-- Modelled from the spec: the round-constant table of
`src/aes_common.py`, indexed by `i // Nk` in `_key_expansion` (index 0 is
never used). -/
def RCON : List Nat :=
  [0x8d, 0x01, 0x02, 0x04, 0x08, 0x10, 0x20, 0x40, 0x80, 0x1b, 0x36]

/-- Modelled from the spec: doubling in GF(2^8) — multiplication by x with
"any overflow past bit 7" reduced "by XOR-ing the fixed reduction
polynomial" x^8+x^4+x^3+x+1 (low byte 0x1b). -/
def xtime (a : Nat) : Nat :=
  let t := (a <<< 1) &&& 0xFF
  if a &&& 0x80 = 0x80 then t ^^^ 0x1B else t

/-- Modelled from the spec: the 8-step Russian-peasant loop computing
`gmul`, accumulating `p` and doubling `a` via `xtime`. -/
def gmulGo : Nat → Nat → Nat → Nat → Nat
  | 0, _, _, p => p
  | fuel + 1, a, b, p =>
    gmulGo fuel (xtime a) (b / 2) (if b % 2 = 1 then p ^^^ a else p)

/-- Modelled from the spec: `gmul(a, b)` of `src/aes_common.py`,
multiplication in GF(2^8) with reduction polynomial x^8+x^4+x^3+x+1. -/
def gmul (a b : Nat) : Nat :=
  gmulGo 8 a b 0

/-- S-box lookup `S_BOX[x]` (total, with default 0; every use in the
theorems keeps `x < 256`, as Python bytes do). -/
def sbox (x : Nat) : Nat := S_BOX.getD x 0

/-- Inverse S-box lookup `INV_S_BOX[x]`. -/
def invSbox (x : Nat) : Nat := INV_S_BOX.getD x 0

/-- The 4x4 cipher state of `aes.py`, field `sRC` holding `state[R][C]`.
The Python code mutates the state in place; each transform below returns
the state the Python function leaves behind. -/
structure AesState where
  s00 : Nat
  s01 : Nat
  s02 : Nat
  s03 : Nat
  s10 : Nat
  s11 : Nat
  s12 : Nat
  s13 : Nat
  s20 : Nat
  s21 : Nat
  s22 : Nat
  s23 : Nat
  s30 : Nat
  s31 : Nat
  s32 : Nat
  s33 : Nat
deriving DecidableEq

/-- `_sub_bytes` from `aes.py`. -/
def subBytes (s : AesState) : AesState :=
  ⟨sbox s.s00, sbox s.s01, sbox s.s02, sbox s.s03,
   sbox s.s10, sbox s.s11, sbox s.s12, sbox s.s13,
   sbox s.s20, sbox s.s21, sbox s.s22, sbox s.s23,
   sbox s.s30, sbox s.s31, sbox s.s32, sbox s.s33⟩

/-- `_inv_sub_bytes` from `aes.py`. -/
def invSubBytes (s : AesState) : AesState :=
  ⟨invSbox s.s00, invSbox s.s01, invSbox s.s02, invSbox s.s03,
   invSbox s.s10, invSbox s.s11, invSbox s.s12, invSbox s.s13,
   invSbox s.s20, invSbox s.s21, invSbox s.s22, invSbox s.s23,
   invSbox s.s30, invSbox s.s31, invSbox s.s32, invSbox s.s33⟩

/-- `_shift_rows` from `aes.py`: row r rotated r bytes to the left. -/
def shiftRows (s : AesState) : AesState :=
  ⟨s.s00, s.s01, s.s02, s.s03,
   s.s11, s.s12, s.s13, s.s10,
   s.s22, s.s23, s.s20, s.s21,
   s.s33, s.s30, s.s31, s.s32⟩

/-- `_inv_shift_rows` from `aes.py`: row r rotated r bytes to the right. -/
def invShiftRows (s : AesState) : AesState :=
  ⟨s.s00, s.s01, s.s02, s.s03,
   s.s13, s.s10, s.s11, s.s12,
   s.s22, s.s23, s.s20, s.s21,
   s.s31, s.s32, s.s33, s.s30⟩

/-- One column of `_mix_columns`. -/
def mixCol (s0 s1 s2 s3 : Nat) : Nat × Nat × Nat × Nat :=
  (gmul s0 2 ^^^ gmul s1 3 ^^^ gmul s2 1 ^^^ gmul s3 1,
   gmul s0 1 ^^^ gmul s1 2 ^^^ gmul s2 3 ^^^ gmul s3 1,
   gmul s0 1 ^^^ gmul s1 1 ^^^ gmul s2 2 ^^^ gmul s3 3,
   gmul s0 3 ^^^ gmul s1 1 ^^^ gmul s2 1 ^^^ gmul s3 2)

/-- One column of `_inv_mix_columns`. -/
def invMixCol (s0 s1 s2 s3 : Nat) : Nat × Nat × Nat × Nat :=
  (gmul s0 0x0e ^^^ gmul s1 0x0b ^^^ gmul s2 0x0d ^^^ gmul s3 0x09,
   gmul s0 0x09 ^^^ gmul s1 0x0e ^^^ gmul s2 0x0b ^^^ gmul s3 0x0d,
   gmul s0 0x0d ^^^ gmul s1 0x09 ^^^ gmul s2 0x0e ^^^ gmul s3 0x0b,
   gmul s0 0x0b ^^^ gmul s1 0x0d ^^^ gmul s2 0x09 ^^^ gmul s3 0x0e)

/-- `_mix_columns` from `aes.py`, applied to the four columns. -/
def mixColumns (s : AesState) : AesState :=
  let c0 := mixCol s.s00 s.s10 s.s20 s.s30
  let c1 := mixCol s.s01 s.s11 s.s21 s.s31
  let c2 := mixCol s.s02 s.s12 s.s22 s.s32
  let c3 := mixCol s.s03 s.s13 s.s23 s.s33
  ⟨c0.1, c1.1, c2.1, c3.1,
   c0.2.1, c1.2.1, c2.2.1, c3.2.1,
   c0.2.2.1, c1.2.2.1, c2.2.2.1, c3.2.2.1,
   c0.2.2.2, c1.2.2.2, c2.2.2.2, c3.2.2.2⟩

/-- `_inv_mix_columns` from `aes.py`. -/
def invMixColumns (s : AesState) : AesState :=
  let c0 := invMixCol s.s00 s.s10 s.s20 s.s30
  let c1 := invMixCol s.s01 s.s11 s.s21 s.s31
  let c2 := invMixCol s.s02 s.s12 s.s22 s.s32
  let c3 := invMixCol s.s03 s.s13 s.s23 s.s33
  ⟨c0.1, c1.1, c2.1, c3.1,
   c0.2.1, c1.2.1, c2.2.1, c3.2.1,
   c0.2.2.1, c1.2.2.1, c2.2.2.1, c3.2.2.1,
   c0.2.2.2, c1.2.2.2, c2.2.2.2, c3.2.2.2⟩

/-- `_add_round_key` from `aes.py`: `state[r][c] ^= round_key[c*4 + r]`. -/
def addRoundKey (s : AesState) (rk : List Nat) : AesState :=
  ⟨s.s00 ^^^ rk.getD 0 0, s.s01 ^^^ rk.getD 4 0, s.s02 ^^^ rk.getD 8 0, s.s03 ^^^ rk.getD 12 0,
   s.s10 ^^^ rk.getD 1 0, s.s11 ^^^ rk.getD 5 0, s.s12 ^^^ rk.getD 9 0, s.s13 ^^^ rk.getD 13 0,
   s.s20 ^^^ rk.getD 2 0, s.s21 ^^^ rk.getD 6 0, s.s22 ^^^ rk.getD 10 0, s.s23 ^^^ rk.getD 14 0,
   s.s30 ^^^ rk.getD 3 0, s.s31 ^^^ rk.getD 7 0, s.s32 ^^^ rk.getD 11 0, s.s33 ^^^ rk.getD 15 0⟩

/-- `_bytes_to_state` from `aes.py`: `state[r][c] = data[c*4 + r]`. -/
def bytesToState (data : List Nat) : AesState :=
  ⟨data.getD 0 0, data.getD 4 0, data.getD 8 0, data.getD 12 0,
   data.getD 1 0, data.getD 5 0, data.getD 9 0, data.getD 13 0,
   data.getD 2 0, data.getD 6 0, data.getD 10 0, data.getD 14 0,
   data.getD 3 0, data.getD 7 0, data.getD 11 0, data.getD 15 0⟩

/-- `_state_to_bytes` from `aes.py`: column-major flattening. -/
def stateToBytes (s : AesState) : List Nat :=
  [s.s00, s.s10, s.s20, s.s30,
   s.s01, s.s11, s.s21, s.s31,
   s.s02, s.s12, s.s22, s.s32,
   s.s03, s.s13, s.s23, s.s33]

/-- `RotWord` inside `_key_expansion`. -/
def rotWord (t : Nat) : Nat :=
  ((t <<< 8) &&& 0xFFFFFF00) ||| ((t >>> 24) &&& 0x000000FF)

/-- `SubWord` inside `_key_expansion` (byte-wise S-box on a 32-bit word). -/
def subWord (t : Nat) : Nat :=
  (sbox ((t >>> 24) &&& 0xFF)) <<< 24 |||
  (sbox ((t >>> 16) &&& 0xFF)) <<< 16 |||
  (sbox ((t >>> 8) &&& 0xFF)) <<< 8 |||
  sbox (t &&& 0xFF)

/-- The word-generation loop of `_key_expansion`, `for i in range(Nk,
Nb*(Nr+1))`, appending one 32-bit word per step; `i` is the current length
of `w`. -/
def expandLoop (Nk : Nat) : Nat → List Nat → List Nat
  | 0, w => w
  | fuel + 1, w =>
    let i := w.length
    let temp := w.getD (i - 1) 0
    let temp :=
      if i % Nk = 0 then
        subWord (rotWord temp) ^^^ (RCON.getD (i / Nk) 0 <<< 24)
      else if 6 < Nk ∧ i % Nk = 4 then subWord temp
      else temp
    expandLoop Nk fuel (w ++ [w.getD (i - Nk) 0 ^^^ temp])

/-- `_key_expansion(key)` from `aes.py`: `none` models the raised
`ValueError` for an invalid key length; otherwise the list of `Nr + 1`
16-byte round keys. -/
def keyExpansion (key : List Nat) : Option (List (List Nat)) :=
  if key.length = 16 ∨ key.length = 24 ∨ key.length = 32 then
    let Nk := key.length / 4
    let Nr := 10 + (Nk - 4) * 2
    let w0 := (List.range Nk).map (fun i => bytesToInt ((key.drop (i * 4)).take 4))
    let w := expandLoop Nk (4 * (Nr + 1) - Nk) w0
    some ((List.range (Nr + 1)).map (fun i =>
      ((List.range 4).map (fun j => intToBytes (w.getD (i * 4 + j) 0) 4)).flatten))
  else none

/-- The main-round loop of `encrypt_block`, one step per round key
(`round_keys[1]` up to `round_keys[Nr-1]`, in order). -/
def encryptRounds : List (List Nat) → AesState → AesState
  | [], s => s
  | k :: rest, s => encryptRounds rest (addRoundKey (mixColumns (shiftRows (subBytes s))) k)

/-- The main-round loop of `decrypt_block`, one step per round key
(`round_keys[Nr-1]` down to `round_keys[1]`). -/
def decryptRounds : List (List Nat) → AesState → AesState
  | [], s => s
  | k :: rest, s =>
    decryptRounds rest (invMixColumns (addRoundKey (invSubBytes (invShiftRows s)) k))

/-- `encrypt_block(block, key)` from `aes.py`; `none` models the raised
`ValueError` for a block that is not 16 bytes or an invalid key length. -/
def encrypt_block (block key : List Nat) : Option (List Nat) :=
  if block.length ≠ 16 then none
  else
    match keyExpansion key with
    | none => none
    | some round_keys =>
      let Nr := round_keys.length - 1
      let middle := (round_keys.drop 1).take (Nr - 1)
      let s0 := addRoundKey (bytesToState block) (round_keys.getD 0 [])
      let s1 := encryptRounds middle s0
      some (stateToBytes (addRoundKey (shiftRows (subBytes s1)) (round_keys.getD Nr [])))

/-- `decrypt_block(block, key)` from `aes.py`. -/
def decrypt_block (block key : List Nat) : Option (List Nat) :=
  if block.length ≠ 16 then none
  else
    match keyExpansion key with
    | none => none
    | some round_keys =>
      let Nr := round_keys.length - 1
      let middle := (round_keys.drop 1).take (Nr - 1)
      let s0 := addRoundKey (bytesToState block) (round_keys.getD Nr [])
      let s1 := decryptRounds middle.reverse s0
      some (stateToBytes (addRoundKey (invSubBytes (invShiftRows s1)) (round_keys.getD 0 [])))

/-- All sixteen state entries are bytes. -/
def GoodState (s : AesState) : Prop :=
  s.s00 < 256 ∧ s.s01 < 256 ∧ s.s02 < 256 ∧ s.s03 < 256 ∧
  s.s10 < 256 ∧ s.s11 < 256 ∧ s.s12 < 256 ∧ s.s13 < 256 ∧
  s.s20 < 256 ∧ s.s21 < 256 ∧ s.s22 < 256 ∧ s.s23 < 256 ∧
  s.s30 < 256 ∧ s.s31 < 256 ∧ s.s32 < 256 ∧ s.s33 < 256

end Aes

/-! ## General helper lemmas -/

set_option maxRecDepth 40000
set_option maxHeartbeats 2000000

theorem xor_left_comm (a b c : Nat) : a ^^^ (b ^^^ c) = b ^^^ (a ^^^ c) := by
  rw [← Nat.xor_assoc, Nat.xor_comm a b, Nat.xor_assoc]

theorem xor_cancel_left (a b : Nat) : a ^^^ (a ^^^ b) = b := by
  rw [← Nat.xor_assoc, Nat.xor_self, Nat.zero_xor]

theorem xor_invol (a b : Nat) : a ^^^ b ^^^ b = a := by
  rw [Nat.xor_assoc, Nat.xor_self, Nat.xor_zero]

theorem shiftLeft_xor (x y n : Nat) : (x ^^^ y) <<< n = x <<< n ^^^ y <<< n := by
  apply Nat.eq_of_testBit_eq
  intro i
  simp [Nat.testBit_shiftLeft, Nat.testBit_xor]
  by_cases h : n ≤ i <;> simp [h]

theorem xor_lt_256 {x y : Nat} (hx : x < 256) (hy : y < 256) : x ^^^ y < 256 := by
  have h : x ^^^ y < 2 ^ 8 := Nat.xor_lt_two_pow (n := 8) (by omega) (by omega)
  omega

theorem getD_lt_256 {l : List Nat} (h : ∀ b ∈ l, b < 256) (i : Nat) : l.getD i 0 < 256 := by
  rcases Nat.lt_or_ge i l.length with hi | hi
  · rw [List.getD_eq_getElem?_getD, List.getElem?_eq_getElem hi]
    exact h _ (List.getElem_mem hi)
  · rw [List.getD_eq_default _ _ hi]
    norm_num

/-! ## pow_mod -/

theorem powModGo_spec (m : Nat) (hm : 1 ≤ m) :
    ∀ fuel b res a, b < fuel → res < m → a < m →
      powModGo m fuel res a b = res * a ^ b % m := by
  intro fuel
  induction fuel with
  | zero => intro b res a hb; omega
  | succ f ih =>
    intro b res a hb hres ha
    rcases Nat.eq_zero_or_pos b with hb0 | hb0
    · subst hb0
      simp [powModGo, Nat.mod_eq_of_lt hres]
    · have hbne : b ≠ 0 := by omega
      rw [powModGo, if_neg hbne]
      have hb2 : b / 2 < f := by omega
      have hres2 : (if b % 2 = 1 then res * a % m else res) < m := by
        split
        · exact Nat.mod_lt _ (by omega)
        · exact hres
      have ha2 : a * a % m < m := Nat.mod_lt _ (by omega)
      rw [ih (b / 2) _ _ hb2 hres2 ha2]
      have hsq : (a * a % m) ^ (b / 2) % m = (a * a) ^ (b / 2) % m := by
        rw [← Nat.pow_mod]
      rcases Nat.mod_two_eq_zero_or_one b with h2 | h2
      · rw [if_neg (by omega)]
        rw [Nat.mul_mod, hsq, ← Nat.mul_mod]
        congr 2
        rw [← pow_two, ← pow_mul]
        congr 1
        omega
      · rw [if_pos h2]
        rw [Nat.mul_mod, hsq, ← Nat.mul_mod, Nat.mod_mul_mod]
        rw [← pow_two, ← pow_mul, mul_assoc, ← pow_succ']
        have hexp : 2 * (b / 2) + 1 = b := by omega
        rw [hexp]

theorem powModGo_one :
    ∀ fuel b res a, b < fuel → 1 ≤ b → powModGo 1 fuel res a b = 0 := by
  intro fuel
  induction fuel with
  | zero => intro b res a hb; omega
  | succ f ih =>
    intro b res a hb hb1
    have hbne : b ≠ 0 := by omega
    rw [powModGo, if_neg hbne]
    rcases Nat.lt_or_ge b 2 with h2 | h2
    · have hb' : b = 1 := by omega
      subst hb'
      obtain ⟨f2, rfl⟩ : ∃ f2, f = f2 + 1 := ⟨f - 1, by omega⟩
      simp [powModGo, Nat.mod_one]
    · exact ih (b / 2) _ _ (by omega) (by omega)

theorem pow_mod_spec (a b m : Nat) (hm : 1 ≤ m) (h : 1 ≤ b ∨ 2 ≤ m) :
    pow_mod a b m = a ^ b % m := by
  rcases Nat.lt_or_ge m 2 with h1 | h1
  · have hm1 : m = 1 := by omega
    subst hm1
    have hb : 1 ≤ b := by omega
    rw [pow_mod, powModGo_one _ _ _ _ (by omega) hb, Nat.mod_one]
  · rw [pow_mod, powModGo_spec m (by omega) _ _ _ _ (by omega) (by omega) (Nat.mod_lt _ (by omega))]
    rw [one_mul, ← Nat.pow_mod]

theorem pow_mod_cases (a b m : Nat) (hm : 1 ≤ m) :
    pow_mod a b m = 1 ∨ pow_mod a b m < m := by
  have go : ∀ fuel b res a, powModGo m fuel res a b = res ∨ powModGo m fuel res a b < m := by
    intro fuel
    induction fuel with
    | zero => intro b res a; left; rfl
    | succ f ih =>
      intro b res a
      rcases Nat.eq_zero_or_pos b with hb0 | hb0
      · subst hb0; left; simp [powModGo]
      · rw [powModGo, if_neg (by omega)]
        rcases Nat.mod_two_eq_zero_or_one b with h2 | h2
        · rw [if_neg (by omega)]
          exact ih _ _ _
        · rw [if_pos h2]
          rcases ih (b / 2) (res * a % m) (a * a % m) with h | h
          · right; rw [h]; exact Nat.mod_lt _ (by omega)
          · right; exact h
  rcases go (b + 1) b 1 (a % m) with h | h
  · left; exact h
  · right; exact h

/-! ## egcd -/

theorem natAbs_fmod_lt (b : Int) {a : Int} (ha : a ≠ 0) :
    (Int.fmod b a).natAbs < a.natAbs := by
  rcases Int.lt_or_lt_of_ne ha with hneg | hpos
  · match a, b with
    | Int.negSucc n, Int.ofNat m =>
      cases m with
      | zero => simp [Int.fmod]
      | succ m2 =>
        show (Int.fmod (Int.ofNat (m2 + 1)) (Int.negSucc n)).natAbs < (Int.negSucc n).natAbs
        rw [Int.fmod]
        rw [Int.subNatNat_eq_coe]
        have h1 : m2 % (n + 1) < n + 1 := Nat.mod_lt _ (by omega)
        simp only [Int.natAbs_negSucc, Nat.succ_eq_add_one]
        omega
    | Int.negSucc n, Int.negSucc m =>
      show (Int.fmod (Int.negSucc m) (Int.negSucc n)).natAbs < (Int.negSucc n).natAbs
      rw [Int.fmod]
      have h1 : (m + 1) % (n + 1) < n + 1 := Nat.mod_lt _ (by omega)
      simp only [Int.natAbs_negSucc, Int.natAbs_neg, Int.natAbs_ofNat, Nat.succ_eq_add_one]
      exact h1
    | Int.ofNat k, _ =>
      exfalso
      have hk : (0 : Int) ≤ Int.ofNat k := Int.ofNat_nonneg k
      omega
  · rw [Int.fmod_eq_emod _ (le_of_lt hpos)]
    have h1 : 0 ≤ b % a := Int.emod_nonneg b (by omega)
    have h2 : b % a < a := Int.emod_lt_of_pos b hpos
    omega

theorem egcdGo_bezout :
    ∀ fuel (a b : Int), a.natAbs < fuel →
      a * (egcdGo fuel a b).2.1 + b * (egcdGo fuel a b).2.2 = (egcdGo fuel a b).1 := by
  intro fuel
  induction fuel with
  | zero => intro a b h; omega
  | succ f ih =>
    intro a b h
    by_cases ha : a = 0
    · subst ha; simp [egcdGo]
    · rw [egcdGo, if_neg ha]
      have hlt : (Int.fmod b a).natAbs < f := by
        have := natAbs_fmod_lt b ha
        omega
      have hb := ih (Int.fmod b a) a hlt
      have hdm := Int.fmod_add_fdiv b a
      set t := egcdGo f (Int.fmod b a) a with ht
      simp only []
      linear_combination hb - (t.2.1 : Int) * hdm

theorem egcdGo_gcd :
    ∀ fuel (a b : Int), a.natAbs < fuel →
      (egcdGo fuel a b).1.natAbs = Int.gcd a b := by
  intro fuel
  induction fuel with
  | zero => intro a b h; omega
  | succ f ih =>
    intro a b h
    by_cases ha : a = 0
    · subst ha; simp [egcdGo, Int.gcd]
    · rw [egcdGo, if_neg ha]
      have hlt : (Int.fmod b a).natAbs < f := by
        have := natAbs_fmod_lt b ha
        omega
      have hg := ih (Int.fmod b a) a hlt
      simp only []
      rw [hg]
      have hdm := Int.fmod_add_fdiv b a
      apply Nat.dvd_antisymm
      · rw [← Int.natCast_dvd_natCast]
        apply Int.dvd_gcd
        · exact Int.gcd_dvd_right
        · have h1 : (↑(Int.gcd (Int.fmod b a) a) : Int) ∣ Int.fmod b a := Int.gcd_dvd_left
          have h2 : (↑(Int.gcd (Int.fmod b a) a) : Int) ∣ a := Int.gcd_dvd_right
          have h3 : (↑(Int.gcd (Int.fmod b a) a) : Int) ∣ Int.fmod b a + a * Int.fdiv b a :=
            dvd_add h1 (Dvd.dvd.mul_right h2 _)
          rwa [hdm] at h3
      · rw [← Int.natCast_dvd_natCast]
        apply Int.dvd_gcd
        · have h1 : (↑(Int.gcd a b) : Int) ∣ a := Int.gcd_dvd_left
          have h2 : (↑(Int.gcd a b) : Int) ∣ b := Int.gcd_dvd_right
          have h3 : (↑(Int.gcd a b) : Int) ∣ b - a * Int.fdiv b a :=
            dvd_sub h2 (Dvd.dvd.mul_right h1 _)
          have heq : b - a * Int.fdiv b a = Int.fmod b a := by linarith [hdm]
          rwa [heq] at h3
        · exact Int.gcd_dvd_left

theorem egcdGo_nonneg :
    ∀ fuel (a b : Int), 0 ≤ a → 0 ≤ b → 0 ≤ (egcdGo fuel a b).1 := by
  intro fuel
  induction fuel with
  | zero => intro a b _ hb; simpa [egcdGo] using hb
  | succ f ih =>
    intro a b ha hb
    by_cases ha0 : a = 0
    · subst ha0; simpa [egcdGo] using hb
    · rw [egcdGo, if_neg ha0]
      simp only []
      exact ih _ _ (Int.fmod_nonneg' b (by omega)) ha

theorem egcd_bezout (a b : Int) :
    a * (egcd a b).2.1 + b * (egcd a b).2.2 = (egcd a b).1 :=
  egcdGo_bezout _ a b (by omega)

theorem egcd_gcd_natAbs (a b : Int) : (egcd a b).1.natAbs = Int.gcd a b :=
  egcdGo_gcd _ a b (by omega)

theorem egcd_fst_nonneg (a b : Int) (ha : 0 ≤ a) (hb : 0 ≤ b) : 0 ≤ (egcd a b).1 :=
  egcdGo_nonneg _ a b ha hb

theorem egcd_fst_eq_gcd (a b : Int) (ha : 0 ≤ a) (hb : 0 ≤ b) :
    (egcd a b).1 = (Int.gcd a b : Int) := by
  have h1 := egcd_gcd_natAbs a b
  have h2 := egcd_fst_nonneg a b ha hb
  omega

/-! ## Byte-conversion lemmas -/

theorem length_intToBytes (x : Nat) : ∀ len, (intToBytes x len).length = len := by
  intro len
  induction len with
  | zero => rfl
  | succ l ih => simp [intToBytes, ih]

theorem mem_intToBytes_lt (x : Nat) : ∀ len, ∀ b ∈ intToBytes x len, b < 256 := by
  intro len
  induction len with
  | zero => intro b hb; simp [intToBytes] at hb
  | succ l ih =>
    intro b hb
    simp only [intToBytes, List.mem_cons] at hb
    rcases hb with hb | hb
    · subst hb; exact Nat.mod_lt _ (by omega)
    · exact ih b hb

theorem bytesToInt_foldl (l : List Nat) :
    ∀ acc, List.foldl (fun acc b => acc * 256 + b) acc l = acc * 256 ^ l.length + bytesToInt l := by
  induction l with
  | nil => intro acc; simp [bytesToInt]
  | cons b rest ih =>
    intro acc
    simp only [bytesToInt, List.foldl_cons, List.length_cons]
    rw [ih (acc * 256 + b), ih (0 * 256 + b)]
    ring

theorem bytesToInt_lt (l : List Nat) (h : ∀ b ∈ l, b < 256) :
    bytesToInt l < 256 ^ l.length := by
  induction l with
  | nil => simp [bytesToInt]
  | cons b rest ih =>
    have hb : b < 256 := h b (by simp)
    have hr : bytesToInt rest < 256 ^ rest.length := ih (fun x hx => h x (by simp [hx]))
    simp only [bytesToInt, List.foldl_cons, List.length_cons]
    rw [bytesToInt_foldl]
    have : (0 * 256 + b) * 256 ^ rest.length ≤ 255 * 256 ^ rest.length := by
      apply Nat.mul_le_mul_right
      omega
    calc (0 * 256 + b) * 256 ^ rest.length + bytesToInt rest
        ≤ 255 * 256 ^ rest.length + bytesToInt rest := by omega
      _ < 255 * 256 ^ rest.length + 256 ^ rest.length := by omega
      _ = 256 ^ (rest.length + 1) := by ring

theorem bytesToInt_intToBytes_aux (x : Nat) :
    ∀ len acc, List.foldl (fun acc b => acc * 256 + b) acc (intToBytes x len) =
      acc * 2 ^ (8 * len) + x % 2 ^ (8 * len) := by
  intro len
  induction len with
  | zero => intro acc; simp [intToBytes, Nat.mod_one]
  | succ l ih =>
    intro acc
    show List.foldl _ (acc * 256 + x / 2 ^ (8 * l) % 256) (intToBytes x l) = _
    rw [ih]
    have hsplit : x % 2 ^ (8 * (l + 1)) = 2 ^ (8 * l) * (x / 2 ^ (8 * l) % 256) + x % 2 ^ (8 * l) := by
      have h1 : (2 : Nat) ^ (8 * (l + 1)) = 2 ^ (8 * l) * 256 := by
        rw [show 8 * (l + 1) = 8 * l + 8 by ring, pow_add]
        norm_num
      rw [h1, Nat.mod_mul]
      ring
    rw [hsplit]
    have h2 : (2 : Nat) ^ (8 * (l + 1)) = 2 ^ (8 * l) * 256 := by
      rw [show 8 * (l + 1) = 8 * l + 8 by ring, pow_add]
      norm_num
    rw [h2]
    ring

theorem bytesToInt_intToBytes (x len : Nat) (h : x < 2 ^ (8 * len)) :
    bytesToInt (intToBytes x len) = x := by
  unfold bytesToInt
  rw [bytesToInt_intToBytes_aux x len 0, Nat.mod_eq_of_lt h]
  ring

theorem intToBytes_add_high (w : Nat) :
    ∀ len c, intToBytes (c * 2 ^ (8 * len) + w) len = intToBytes w len := by
  intro len
  induction len with
  | zero => intro c; rfl
  | succ l ih =>
    intro c
    have h1 : c * 2 ^ (8 * (l + 1)) + w = w + 2 ^ (8 * l) * (256 * c) := by
      rw [show 8 * (l + 1) = 8 * l + 8 by ring, pow_add]
      ring
    unfold intToBytes
    congr 1
    · rw [h1, Nat.add_mul_div_left _ _ (pow_pos (by omega) _)]
      rw [Nat.mul_comm 256 c, ← Nat.mul_comm 256, Nat.add_mul_mod_self_left]
    · rw [h1, show w + 2 ^ (8 * l) * (256 * c) = (256 * c) * 2 ^ (8 * l) + w by ring, ih]

theorem intToBytes_bytesToInt (l : List Nat) (h : ∀ b ∈ l, b < 256) :
    intToBytes (bytesToInt l) l.length = l := by
  induction l with
  | nil => rfl
  | cons b rest ih =>
    have hb : b < 256 := h b (by simp)
    have hrest : ∀ x ∈ rest, x < 256 := fun x hx => h x (by simp [hx])
    have hr : bytesToInt rest < 256 ^ rest.length := bytesToInt_lt rest hrest
    have hpow : (256 : Nat) ^ rest.length = 2 ^ (8 * rest.length) := by
      rw [show (256 : Nat) = 2 ^ 8 by norm_num, ← pow_mul]
    have hval : bytesToInt (b :: rest) = b * 2 ^ (8 * rest.length) + bytesToInt rest := by
      simp only [bytesToInt, List.foldl_cons]
      rw [bytesToInt_foldl]
      rw [show List.foldl (fun acc b => acc * 256 + b) 0 rest = bytesToInt rest from rfl]
      rw [hpow]
      ring
    have hval2 : bytesToInt (b :: rest) = bytesToInt rest + 2 ^ (8 * rest.length) * b := by
      rw [hval]; ring
    show intToBytes (bytesToInt (b :: rest)) (rest.length + 1) = b :: rest
    unfold intToBytes
    congr 1
    · rw [hval2, Nat.add_mul_div_left _ _ (pow_pos (by omega) _)]
      rw [Nat.div_eq_of_lt (by omega : bytesToInt rest < 2 ^ (8 * rest.length))]
      rw [Nat.zero_add, Nat.mod_eq_of_lt hb]
    · rw [hval, intToBytes_add_high _ _ b, ih hrest]

theorem intToBytes_pad (x len L : Nat) (hx : x < 2 ^ (8 * len)) (hlen : len ≤ L) :
    intToBytes x L = List.replicate (L - len) 0 ++ intToBytes x len := by
  obtain ⟨k, rfl⟩ : ∃ k, L = len + k := ⟨L - len, by omega⟩
  have hL : len + k - len = k := by omega
  rw [hL]
  clear hlen hL
  induction k with
  | zero => simp
  | succ k2 ih =>
    rw [show len + (k2 + 1) = len + k2 + 1 from by ring]
    have hstep : intToBytes x (len + k2 + 1) =
        x / 2 ^ (8 * (len + k2)) % 256 :: intToBytes x (len + k2) := rfl
    rw [hstep]
    have hdiv : x / 2 ^ (8 * (len + k2)) = 0 := by
      apply Nat.div_eq_of_lt
      calc x < 2 ^ (8 * len) := hx
        _ ≤ 2 ^ (8 * (len + k2)) := Nat.pow_le_pow_right (by omega) (by omega)
    rw [hdiv]
    rw [ih]
    simp [List.replicate_succ]

theorem lstripZeros_replicate (k : Nat) (l : List Nat) :
    lstripZeros (List.replicate k 0 ++ l) = lstripZeros l := by
  induction k with
  | zero => rfl
  | succ k2 ih =>
    show lstripZeros (0 :: (List.replicate k2 0 ++ l)) = lstripZeros l
    unfold lstripZeros at *
    rw [List.dropWhile_cons]
    simp only [beq_self_eq_true, if_true]
    exact ih

theorem lstripZeros_of_head_ne (l : List Nat) (h : l.head? ≠ some 0) :
    lstripZeros l = l := by
  cases l with
  | nil => rfl
  | cons b rest =>
    have hb : b ≠ 0 := by
      intro hb0
      apply h
      rw [hb0]
      rfl
    unfold lstripZeros
    rw [List.dropWhile_cons]
    simp [hb]

theorem bytesToInt_head_ge (b : Nat) (rest : List Nat) (hb : 1 ≤ b) :
    256 ^ rest.length ≤ bytesToInt (b :: rest) := by
  unfold bytesToInt
  show _ ≤ List.foldl _ (0 * 256 + b) rest
  rw [bytesToInt_foldl]
  have : 1 * 256 ^ rest.length ≤ (0 * 256 + b) * 256 ^ rest.length := by
    apply Nat.mul_le_mul_right
    omega
  omega

/-! ## bitLength lemmas -/

theorem bitLenGo_spec : ∀ fuel n, n ≤ fuel → n < 2 ^ bitLenGo fuel n := by
  intro fuel
  induction fuel with
  | zero =>
    intro n hn
    have : n = 0 := by omega
    subst this
    simp [bitLenGo]
  | succ f ih =>
    intro n hn
    by_cases h0 : n = 0
    · subst h0; simp [bitLenGo]
    · rw [bitLenGo, if_neg h0]
      have h2 : n / 2 < 2 ^ bitLenGo f (n / 2) := ih (n / 2) (by omega)
      have : 2 ^ (bitLenGo f (n / 2) + 1) = 2 * 2 ^ bitLenGo f (n / 2) := by ring
      omega

theorem lt_two_pow_bitLength (n : Nat) : n < 2 ^ bitLength n :=
  bitLenGo_spec n n (le_refl n)

theorem le_pow_nBytes (n : Nat) : n < 2 ^ (8 * Rsa.nBytes n) := by
  have h1 := lt_two_pow_bitLength n
  have h2 : bitLength n ≤ 8 * Rsa.nBytes n := by
    unfold Rsa.nBytes
    omega
  calc n < 2 ^ bitLength n := h1
    _ ≤ 2 ^ (8 * Rsa.nBytes n) := Nat.pow_le_pow_right (by omega) h2

theorem nBytes_pos (n : Nat) (hn : 1 ≤ n) : 1 ≤ Rsa.nBytes n := by
  unfold Rsa.nBytes
  have : 1 ≤ bitLength n := by
    by_contra h
    push_neg at h
    have h0 : bitLength n = 0 := by omega
    have := lt_two_pow_bitLength n
    rw [h0] at this
    simp at this
    omega
  omega

/-! ## Claims C4, C5, C7 -/

/-- C4: the claim says `pow_mod(a, b, m)` equals the exact `(a^b) mod m` for
all `a, b ≥ 0`, `m ≥ 1`; the code contradicts it (and its own docstring,
which promises equivalence with Python's `pow`) at `a = 0, b = 0, m = 1`,
where it returns the initial `res = 1` while `(0^0) mod 1 = 0`. -/
theorem C4_pow_mod_failing_input : pow_mod 0 0 1 = 1 ∧ 0 ^ 0 % 1 = 0 := by
  decide

/-- C5 counterexample: at `(a, b) = (-3, 5)` the triple returned by `egcd`
has `g = -1` while `gcd(-3, 5) = 1`, so the claimed `g = gcd(a, b)` fails
for nonzero inputs with mixed signs (the Bezout part still holds). -/
theorem C5_counterexample :
    (egcd (-3) 5).1 = -1 ∧ Int.gcd (-3) 5 = 1 ∧
      (egcd (-3) 5).1 ≠ ((Int.gcd (-3) 5 : Nat) : Int) := by
  decide

/-- C5 (amended): for all nonzero integers `a` and `b`, `egcd (a, b)`
returns `(g, x, y)` with `a*x + b*y = g` and `|g| = gcd(a, b)` (the claim's
`g = gcd(a, b)` holds only up to sign). -/
theorem C5_egcd_bezout_spec (a b : Int) (ha : a ≠ 0) (hb : b ≠ 0) :
    a * (egcd a b).2.1 + b * (egcd a b).2.2 = (egcd a b).1 ∧
      (egcd a b).1.natAbs = Int.gcd a b :=
  ⟨egcd_bezout a b, egcd_gcd_natAbs a b⟩

/-- C5 witness at `a = 6, b = 4`. -/
theorem C5_witness :
    6 * (egcd 6 4).2.1 + 4 * (egcd 6 4).2.2 = (egcd 6 4).1 ∧
      (egcd 6 4).1.natAbs = Int.gcd 6 4 :=
  C5_egcd_bezout_spec 6 4 (by decide) (by decide)

/-- C7 counterexample: at `a = 1, m = 1` the gcd is 1 and `mod_inverse`
returns `0`, but `(1 * 0) mod 1 = 0 ≠ 1`: the representative-level equation
`(a * x) mod m = 1` claimed is unsatisfiable at `m = 1`. -/
theorem C7_counterexample :
    mod_inverse 1 1 = some 0 ∧ ¬((1 : Int) * 0 % 1 = 1) := by
  decide

/-- C7 (amended): for positive integers `a` and `m`, `mod_inverse` fails
exactly when `gcd(a, m) ≠ 1`, and otherwise returns `x ∈ [0, m)` with
`a·x ≡ 1 (mod m)` (stated as `(a*x) mod m = 1 mod m`, which at `m = 1`
weakens the claim's `(a*x) mod m = 1` to the congruence the spec states). -/
theorem C7_mod_inverse_spec (a m : Int) (ha : 0 < a) (hm : 0 < m) :
    (mod_inverse a m = none ↔ Int.gcd a m ≠ 1) ∧
    (Int.gcd a m = 1 →
      ∃ x, mod_inverse a m = some x ∧ 0 ≤ x ∧ x < m ∧ a * x % m = 1 % m) := by
  have hg : (egcd a m).1 = (Int.gcd a m : Int) :=
    egcd_fst_eq_gcd a m (by omega) (by omega)
  constructor
  · constructor
    · intro hnone hgcd
      rw [mod_inverse] at hnone
      rw [hg, hgcd] at hnone
      simp at hnone
    · intro hgcd
      rw [mod_inverse]
      rw [if_pos]
      rw [hg]
      intro hc
      apply hgcd
      exact_mod_cast hc
  · intro hgcd
    refine ⟨Int.fmod (egcd a m).2.1 m, ?_, ?_, ?_, ?_⟩
    · rw [mod_inverse, if_neg]
      simp only [ne_eq, not_not]
      rw [hg, hgcd]
      norm_num
    · rw [Int.fmod_eq_emod _ (by omega)]
      exact Int.emod_nonneg _ (by omega)
    · rw [Int.fmod_eq_emod _ (by omega)]
      exact Int.emod_lt_of_pos _ hm
    · rw [Int.fmod_eq_emod _ (by omega)]
      have hbez := egcd_bezout a m
      rw [hg, hgcd] at hbez
      rw [Int.mul_emod a ((egcd a m).2.1 % m), Int.emod_emod_of_dvd _ (dvd_refl m),
        ← Int.mul_emod]
      have hax : a * (egcd a m).2.1 = 1 + m * (-(egcd a m).2.2) := by
        push_cast at hbez
        linarith
      rw [hax, Int.add_mul_emod_self_left]

/-- C7 witness at `a = 3, m = 8`. -/
theorem C7_witness :
    (mod_inverse 3 8 = none ↔ Int.gcd 3 8 ≠ 1) ∧
    (Int.gcd 3 8 = 1 →
      ∃ x, mod_inverse 3 8 = some x ∧ 0 ≤ x ∧ x < 8 ∧ 3 * x % 8 = 1 % 8) :=
  C7_mod_inverse_spec 3 8 (by decide) (by decide)

/-! ## Claim C8 -/

/-- C8: the Miller-Rabin classifier returns `true` for 2 and 3 and `false`
for every other even or small `n` regardless of the random source; and for
every possible witness sequence (each draw in the `randrange(2, n-2)`
range) it accepts the primes 5, 7, 97 and rejects the composites 9, 15
(at the default 40 rounds). -/
theorem C8_is_probably_prime_classification :
    (∀ k rand, is_probably_prime 2 k rand = true) ∧
    (∀ k rand, is_probably_prime 3 k rand = true) ∧
    (∀ n k rand, n ≠ 2 → n ≠ 3 → (n % 2 = 0 ∨ n < 5) → is_probably_prime n k rand = false) ∧
    (∀ k rand, (∀ i, 2 ≤ rand i ∧ rand i < 3) → is_probably_prime 5 k rand = true) ∧
    (∀ k rand, (∀ i, 2 ≤ rand i ∧ rand i < 5) → is_probably_prime 7 k rand = true) ∧
    (∀ k rand, (∀ i, 2 ≤ rand i ∧ rand i < 95) → is_probably_prime 97 k rand = true) ∧
    (∀ rand, (∀ i, 2 ≤ rand i ∧ rand i < 7) → is_probably_prime 9 40 rand = false) ∧
    (∀ rand, (∀ i, 2 ≤ rand i ∧ rand i < 13) → is_probably_prime 15 40 rand = false) := by
  refine ⟨?_, ?_, ?_, ?_, ?_, ?_, ?_, ?_⟩
  · intro k rand
    unfold is_probably_prime
    rw [if_pos (by decide)]
  · intro k rand
    unfold is_probably_prime
    rw [if_pos (by decide)]
  · intro n k rand h2 h3 hcase
    unfold is_probably_prime
    rw [if_neg (by simp [h2, h3]), if_pos (Or.symm hcase)]
  · intro k rand hr
    unfold is_probably_prime
    rw [if_neg (by decide), if_neg (by decide), List.all_eq_true]
    intro i hi
    have hw : ∀ a, 2 ≤ a → a < 3 →
        millerRabinWitness 5 (splitTwos 4 0 4).2 (splitTwos 4 0 4).1 a = true := by decide
    exact hw _ (hr i).1 (hr i).2
  · intro k rand hr
    unfold is_probably_prime
    rw [if_neg (by decide), if_neg (by decide), List.all_eq_true]
    intro i hi
    have hw : ∀ a, 2 ≤ a → a < 5 →
        millerRabinWitness 7 (splitTwos 6 0 6).2 (splitTwos 6 0 6).1 a = true := by decide
    exact hw _ (hr i).1 (hr i).2
  · intro k rand hr
    unfold is_probably_prime
    rw [if_neg (by decide), if_neg (by decide), List.all_eq_true]
    intro i hi
    have hw : ∀ a, 2 ≤ a → a < 95 →
        millerRabinWitness 97 (splitTwos 96 0 96).2 (splitTwos 96 0 96).1 a = true := by decide
    exact hw _ (hr i).1 (hr i).2
  · intro rand hr
    unfold is_probably_prime
    rw [if_neg (by decide), if_neg (by decide), List.all_eq_false]
    refine ⟨0, List.mem_range.mpr (by omega), ?_⟩
    have hw : ∀ a, 2 ≤ a → a < 7 →
        millerRabinWitness 9 (splitTwos 8 0 8).2 (splitTwos 8 0 8).1 a = false := by decide
    simp only [Bool.not_eq_true]
    exact hw _ (hr 0).1 (hr 0).2
  · intro rand hr
    unfold is_probably_prime
    rw [if_neg (by decide), if_neg (by decide), List.all_eq_false]
    refine ⟨0, List.mem_range.mpr (by omega), ?_⟩
    have hw : ∀ a, 2 ≤ a → a < 13 →
        millerRabinWitness 15 (splitTwos 14 0 14).2 (splitTwos 14 0 14).1 a = false := by decide
    simp only [Bool.not_eq_true]
    exact hw _ (hr 0).1 (hr 0).2

/-- C8 witness: the constant witness sequence 2 at the default 40 rounds
accepts 97 and rejects 9. -/
theorem C8_witness :
    is_probably_prime 97 40 (fun _ => 2) = true ∧
      is_probably_prime 9 40 (fun _ => 2) = false :=
  ⟨C8_is_probably_prime_classification.2.2.2.2.2.1 40 (fun _ => 2)
      (fun _ => ⟨Nat.le_refl 2, (by decide : (2 : Nat) < 95)⟩),
   C8_is_probably_prime_classification.2.2.2.2.2.2.1 (fun _ => 2)
      (fun _ => ⟨Nat.le_refl 2, (by decide : (2 : Nat) < 7)⟩)⟩

/-! ## RSA lemmas and claims C6, C10, C1 -/

theorem Rsa.encrypt_eq (e n : Nat) (message : List Nat) :
    Rsa.encrypt (e, n) message =
      if n ≤ bytesToInt message then .error .messageTooLarge
      else if pow_mod (bytesToInt message) e n < 2 ^ (8 * Rsa.nBytes n) then
        .ok (intToBytes (pow_mod (bytesToInt message) e n) (Rsa.nBytes n))
      else .error .overflowError := rfl

theorem Rsa.decrypt_eq (d n : Nat) (ciphertext : List Nat) :
    Rsa.decrypt (d, n) ciphertext =
      if pow_mod (bytesToInt ciphertext) d n < 2 ^ (8 * Rsa.nBytes n) then
        .ok (lstripZeros (intToBytes (pow_mod (bytesToInt ciphertext) d n) (Rsa.nBytes n)))
      else if pow_mod (bytesToInt ciphertext) d n < 2 ^ (8 * (Rsa.nBytes n + 1)) then
        .ok (lstripZeros (intToBytes (pow_mod (bytesToInt ciphertext) d n) (Rsa.nBytes n + 1)))
      else .error .overflowError := rfl

theorem pow_mod_lt_pow_nBytes (x b n : Nat) (hn : 1 ≤ n) :
    pow_mod x b n < 2 ^ (8 * Rsa.nBytes n) := by
  rcases pow_mod_cases x b n hn with h | h
  · rw [h]
    have h1 : 1 ≤ Rsa.nBytes n := nBytes_pos n hn
    calc 1 < 2 ^ 8 := by norm_num
      _ ≤ 2 ^ (8 * Rsa.nBytes n) := Nat.pow_le_pow_right (by omega) (by omega)
  · calc pow_mod x b n < n := h
      _ < 2 ^ (8 * Rsa.nBytes n) := le_pow_nBytes n

theorem head_lstripZeros (l : List Nat) : (lstripZeros l).head? ≠ some 0 := by
  induction l with
  | nil => simp [lstripZeros]
  | cons b rest ih =>
    unfold lstripZeros at *
    rw [List.dropWhile_cons]
    by_cases hb : b = 0
    · simp only [hb, beq_self_eq_true, if_true]
      exact ih
    · simp only [beq_iff_eq, hb, if_false]
      intro hcon
      rw [List.head?_cons] at hcon
      exact hb (by injection hcon)

/-- C6: for every public key `(e, n)` with `n ≥ 1`, `encrypt` fails with
`MessageTooLarge` exactly when the big-endian value of the message is at
least `n`, and otherwise returns exactly `ceil(bit_length(n)/8)` bytes
whose big-endian value is `pow_mod(m, e, n)`. -/
theorem C6_encrypt_spec (e n : Nat) (hn : 1 ≤ n) (message : List Nat) :
    (Rsa.encrypt (e, n) message = .error .messageTooLarge ↔ n ≤ bytesToInt message) ∧
    (bytesToInt message < n →
      ∃ ct, Rsa.encrypt (e, n) message = .ok ct ∧ ct.length = Rsa.nBytes n ∧
        bytesToInt ct = pow_mod (bytesToInt message) e n) := by
  have hov := pow_mod_lt_pow_nBytes (bytesToInt message) e n hn
  constructor
  · constructor
    · intro herr
      by_contra hlt
      push_neg at hlt
      rw [Rsa.encrypt_eq, if_neg (by omega), if_pos hov] at herr
      simp at herr
    · intro hge
      rw [Rsa.encrypt_eq, if_pos hge]
  · intro hlt
    refine ⟨intToBytes (pow_mod (bytesToInt message) e n) (Rsa.nBytes n), ?_, ?_, ?_⟩
    · rw [Rsa.encrypt_eq, if_neg (by omega), if_pos hov]
    · exact length_intToBytes _ _
    · exact bytesToInt_intToBytes _ _ hov

/-- C6 witness at `e = 3, n = 15`, message `[2]`. -/
theorem C6_witness :
    (Rsa.encrypt (3, 15) [2] = .error .messageTooLarge ↔ 15 ≤ bytesToInt [2]) ∧
    (bytesToInt [2] < 15 →
      ∃ ct, Rsa.encrypt (3, 15) [2] = .ok ct ∧ ct.length = Rsa.nBytes 15 ∧
        bytesToInt ct = pow_mod (bytesToInt [2]) 3 15) :=
  C6_encrypt_spec 3 15 (by decide) [2]

/-- C10: for every private key `(d, n)` with `n ≥ 1` and every ciphertext,
the decrypted integer fits in `nBytes n` bytes (so the Python
`OverflowError` fallback is unreachable and `decrypt` never raises), and
the result is the big-endian encoding stripped of all leading zero bytes,
hence empty or starting with a nonzero byte. -/
theorem C10_decrypt_total (d n : Nat) (hn : 1 ≤ n) (ct : List Nat) :
    pow_mod (bytesToInt ct) d n < 2 ^ (8 * Rsa.nBytes n) ∧
    Rsa.decrypt (d, n) ct =
      .ok (lstripZeros (intToBytes (pow_mod (bytesToInt ct) d n) (Rsa.nBytes n))) ∧
    (lstripZeros (intToBytes (pow_mod (bytesToInt ct) d n) (Rsa.nBytes n))).head? ≠ some 0 := by
  have hov := pow_mod_lt_pow_nBytes (bytesToInt ct) d n hn
  exact ⟨hov, by rw [Rsa.decrypt_eq, if_pos hov], head_lstripZeros _⟩

/-- C10 witness at `d = 3, n = 15`, ciphertext `[8]`. -/
theorem C10_witness :
    pow_mod (bytesToInt [8]) 3 15 < 2 ^ (8 * Rsa.nBytes 15) ∧
    Rsa.decrypt (3, 15) [8] =
      .ok (lstripZeros (intToBytes (pow_mod (bytesToInt [8]) 3 15) (Rsa.nBytes 15))) ∧
    (lstripZeros (intToBytes (pow_mod (bytesToInt [8]) 3 15) (Rsa.nBytes 15))).head? ≠ some 0 :=
  C10_decrypt_total 3 15 (by decide) [8]

theorem prime_pow_congr (p : Nat) (hp : Nat.Prime p) (m k c : Nat) :
    m ^ (1 + k * ((p - 1) * c)) ≡ m [MOD p] := by
  by_cases hdvd : p ∣ m
  · have h0 : m ≡ 0 [MOD p] := (Nat.modEq_zero_iff_dvd).mpr hdvd
    calc m ^ (1 + k * ((p - 1) * c))
        ≡ 0 ^ (1 + k * ((p - 1) * c)) [MOD p] := h0.pow _
      _ = 0 := by rw [zero_pow]; omega
      _ ≡ m [MOD p] := h0.symm
  · have hco : Nat.Coprime m p :=
      Nat.Coprime.symm ((Nat.Prime.coprime_iff_not_dvd hp).mpr hdvd)
    have hf : m ^ (p - 1) ≡ 1 [MOD p] := by
      have ht := Nat.ModEq.pow_totient hco
      rwa [Nat.totient_prime hp] at ht
    calc m ^ (1 + k * ((p - 1) * c))
        = m * (m ^ (p - 1)) ^ (k * c) := by
          rw [pow_add, pow_one, ← pow_mul]
          congr 2
          ring
      _ ≡ m * 1 ^ (k * c) [MOD p] := Nat.ModEq.mul_left m (hf.pow _)
      _ = m := by simp

theorem rsa_pow_congr (p q e d m : Nat) (hp : Nat.Prime p) (hq : Nat.Prime q)
    (hpq : p ≠ q)
    (hed : e * d % ((p - 1) * (q - 1)) = 1 % ((p - 1) * (q - 1))) :
    m ^ (e * d) ≡ m [MOD p * q] := by
  have hp2 := hp.two_le
  have hq2 := hq.two_le
  have hphi : 2 ≤ (p - 1) * (q - 1) := by
    by_cases hp2' : p = 2
    · have hq3 : 3 ≤ q := by
        rcases Nat.lt_or_ge q 3 with h | h
        · exfalso; apply hpq; omega
        · exact h
      calc 2 ≤ q - 1 := by omega
        _ = 1 * (q - 1) := by ring
        _ ≤ (p - 1) * (q - 1) := Nat.mul_le_mul_right _ (by omega)
    · have hp3 : 3 ≤ p := by omega
      calc 2 ≤ p - 1 := by omega
        _ = (p - 1) * 1 := by ring
        _ ≤ (p - 1) * (q - 1) := Nat.mul_le_mul_left _ (by omega)
  have h1m : 1 % ((p - 1) * (q - 1)) = 1 := Nat.mod_eq_of_lt (by omega)
  rw [h1m] at hed
  have hsplit : e * d = 1 + e * d / ((p - 1) * (q - 1)) * ((p - 1) * (q - 1)) := by
    have h0 := Nat.div_add_mod (e * d) ((p - 1) * (q - 1))
    rw [hed, Nat.mul_comm] at h0
    omega
  set K := e * d / ((p - 1) * (q - 1)) with hK
  have hcp : m ^ (e * d) ≡ m [MOD p] := by
    rw [hsplit]
    exact prime_pow_congr p hp m K (q - 1)
  have hcq : m ^ (e * d) ≡ m [MOD q] := by
    rw [hsplit]
    have hcomm : (p - 1) * (q - 1) = (q - 1) * (p - 1) := by ring
    rw [hcomm]
    exact prime_pow_congr q hq m K (p - 1)
  have hco : Nat.Coprime p q := (Nat.coprime_primes hp hq).mpr hpq
  exact (Nat.modEq_and_modEq_iff_modEq_mul hco).mp ⟨hcp, hcq⟩

theorem lstrip_intToBytes_eq (message : List Nat) (L : Nat)
    (hbytes : ∀ b ∈ message, b < 256) (hlen : message.length ≤ L)
    (hlead : message.head? ≠ some 0) :
    lstripZeros (intToBytes (bytesToInt message) L) = message := by
  have hval : bytesToInt message < 2 ^ (8 * message.length) := by
    have h := bytesToInt_lt message hbytes
    have hpow : (256 : Nat) ^ message.length = 2 ^ (8 * message.length) := by
      rw [show (256 : Nat) = 2 ^ 8 by norm_num, ← pow_mul]
    omega
  rw [intToBytes_pad _ _ _ hval hlen, intToBytes_bytesToInt _ hbytes,
    lstripZeros_replicate]
  exact lstripZeros_of_head_ne _ hlead

/-- C1 counterexample: with the key pair `e = d = 3, n = 15 = 3 * 5`
(`3 * 3 = 9 ≡ 1 (mod 8)`), the one-byte message `[0]` has value `0 < 15`,
but decrypting its encryption yields the empty byte string, not `[0]`:
the leading-zero stripping in `decrypt` discards the original byte. -/
theorem C1_counterexample :
    Nat.Prime 3 ∧ Nat.Prime 5 ∧ (3 : Nat) ≠ 5 ∧
      3 * 3 % ((3 - 1) * (5 - 1)) = 1 % ((3 - 1) * (5 - 1)) ∧
      bytesToInt [0] < 3 * 5 ∧
      Rsa.encrypt (3, 3 * 5) [0] = .ok [0] ∧
      Rsa.decrypt (3, 3 * 5) [0] = .ok [] ∧
      ([] : List Nat) ≠ [0] := by
  refine ⟨by norm_num, by norm_num, by decide, by decide, by decide, by decide, by decide,
    by decide⟩

/-- C1 (amended): for every RSA key pair satisfying the generate_keypair
invariant (n = p·q for distinct primes p, q and e·d ≡ 1 mod φ(n)) and every
message byte string whose big-endian value is below n and which does not
start with a zero byte (equivalently, is empty or starts with a nonzero
byte), decrypt(priv, encrypt(pub, message)) returns exactly the message. -/
theorem C1_rsa_roundtrip (p q e d : Nat) (hp : Nat.Prime p) (hq : Nat.Prime q)
    (hpq : p ≠ q)
    (hed : e * d % ((p - 1) * (q - 1)) = 1 % ((p - 1) * (q - 1)))
    (message : List Nat) (hbytes : ∀ b ∈ message, b < 256)
    (hlt : bytesToInt message < p * q) (hlead : message.head? ≠ some 0) :
    ∃ ct, Rsa.encrypt (e, p * q) message = .ok ct ∧
      Rsa.decrypt (d, p * q) ct = .ok message := by
  set n := p * q with hn
  set mi := bytesToInt message with hmi
  have hn4 : 4 ≤ n := by
    calc 4 = 2 * 2 := by norm_num
      _ ≤ p * q := Nat.mul_le_mul hp.two_le hq.two_le
  have hov := pow_mod_lt_pow_nBytes mi e n (by omega)
  refine ⟨intToBytes (pow_mod mi e n) (Rsa.nBytes n), ?_, ?_⟩
  · rw [Rsa.encrypt_eq, if_neg (by omega), if_pos hov]
  · have hct : bytesToInt (intToBytes (pow_mod mi e n) (Rsa.nBytes n)) = pow_mod mi e n :=
      bytesToInt_intToBytes _ _ hov
    have hc_eq : pow_mod mi e n = mi ^ e % n :=
      pow_mod_spec _ _ _ (by omega) (Or.inr (by omega))
    have hm2 : pow_mod (bytesToInt (intToBytes (pow_mod mi e n) (Rsa.nBytes n))) d n = mi := by
      rw [hct, pow_mod_spec _ _ _ (by omega) (Or.inr (by omega)), hc_eq]
      rw [← Nat.pow_mod, ← pow_mul]
      have hcong := rsa_pow_congr p q e d mi hp hq hpq hed
      rw [show mi ^ (e * d) % n = mi % n from hcong]
      exact Nat.mod_eq_of_lt hlt
    have hlen : message.length ≤ Rsa.nBytes n := by
      by_contra hgt
      push_neg at hgt
      have hpow : (256 : Nat) ^ Rsa.nBytes n = 2 ^ (8 * Rsa.nBytes n) := by
        rw [show (256 : Nat) = 2 ^ 8 by norm_num, ← pow_mul]
      cases hmsg : message with
      | nil =>
        rw [hmsg] at hgt
        simp at hgt
      | cons b rest =>
        have hb0 : b ≠ 0 := by
          intro hb
          apply hlead
          rw [hmsg, hb]
          rfl
        have hge : 256 ^ rest.length ≤ mi := by
          rw [hmi, hmsg]
          exact bytesToInt_head_ge b rest (by omega)
        have hub : (256 : Nat) ^ Rsa.nBytes n ≤ 256 ^ rest.length := by
          apply Nat.pow_le_pow_right (by omega)
          rw [hmsg] at hgt
          simp at hgt
          omega
        have hnn := le_pow_nBytes n
        omega
    rw [Rsa.decrypt_eq, hm2,
      if_pos (show mi < 2 ^ (8 * Rsa.nBytes n) by have := le_pow_nBytes n; omega)]
    rw [hmi, lstrip_intToBytes_eq message _ hbytes hlen hlead]

/-- C1 witness: key pair `e = d = 3, n = 15`, message `[2]`. -/
theorem C1_witness :
    ∃ ct, Rsa.encrypt (3, 3 * 5) [2] = .ok ct ∧
      Rsa.decrypt (3, 3 * 5) ct = .ok [2] :=
  C1_rsa_roundtrip 3 5 3 3 (by norm_num) (by norm_num) (by decide) (by decide) [2]
    (by intro b hb; simp at hb; omega) (by decide) (by decide)

/-! ## Claims C9 and C3 -/

/-- C9 counterexample: an input of `2^61` bytes has bit length `2^64`,
which does not fit the 64-bit length field; `struct.pack('>Q', ...)` raises
`struct.error` instead of returning padded bytes. -/
theorem C9_counterexample : Sha256.padding (List.replicate (2 ^ 61) 0) = none := by
  unfold Sha256.padding
  rw [if_neg]
  rw [List.length_replicate]
  norm_num

/-- C9 (amended): for every input byte string of bit length below `2^64`,
the padding step returns the input followed by one `0x80` byte, then `z`
zero bytes with `z < 64` and `(len + 1 + z) ≡ 56 (mod 64)` (hence the
minimal such count), then the original bit length as a 64-bit big-endian
integer; the padded length is a positive multiple of 64. -/
theorem C9_padding_spec (message : List Nat) (h : message.length * 8 < 2 ^ 64) :
    ∃ z,
      Sha256.padding message =
        some ((message ++ [0x80]) ++ List.replicate z 0 ++
          intToBytes (message.length * 8) 8) ∧
      z < 64 ∧ (message.length + 1 + z) % 64 = 56 ∧
      ((message ++ [0x80]) ++ List.replicate z 0 ++
        intToBytes (message.length * 8) 8).length % 64 = 0 ∧
      0 < ((message ++ [0x80]) ++ List.replicate z 0 ++
        intToBytes (message.length * 8) 8).length := by
  refine ⟨((56 - ((message.length + 1 : Nat) : Int) % 64) % 64).toNat, ?_, ?_, ?_, ?_, ?_⟩
  · unfold Sha256.padding
    rw [if_pos h]
    congr 2
    simp [List.length_append]
  · omega
  · omega
  · simp only [List.length_append, List.length_replicate, length_intToBytes,
      List.length_cons, List.length_nil]
    omega
  · simp only [List.length_append, List.length_replicate, length_intToBytes,
      List.length_cons, List.length_nil]
    omega

/-- C9 witness: the empty message. -/
theorem C9_witness :
    ∃ z,
      Sha256.padding [] =
        some ((([] : List Nat) ++ [0x80]) ++ List.replicate z 0 ++
          intToBytes (List.length ([] : List Nat) * 8) 8) ∧
      z < 64 ∧ (List.length ([] : List Nat) + 1 + z) % 64 = 56 ∧
      ((([] : List Nat) ++ [0x80]) ++ List.replicate z 0 ++
        intToBytes (List.length ([] : List Nat) * 8) 8).length % 64 = 0 ∧
      0 < ((([] : List Nat) ++ [0x80]) ++ List.replicate z 0 ++
        intToBytes (List.length ([] : List Nat) * 8) 8).length :=
  C9_padding_spec [] (by norm_num)

/-- C3 counterexample: the digest string in the claim has only 63 hex
characters (the final `5` of the well-known empty-string digest is
missing), so `hash` of the empty input does not return it. -/
theorem C3_counterexample :
    Sha256.hash [] ≠
      some "e3b0c44298fc1c149afbf4c8996fb92427ae41e4649b934ca495991b7852b85" := by
  decide

/-- C3 (amended): `hash` applied to the empty string (UTF-8 bytes `[]`)
returns the well-known 64-character empty-string digest ending in `55`. -/
theorem C3_hash_empty :
    Sha256.hash [] =
      some "e3b0c44298fc1c149afbf4c8996fb92427ae41e4649b934ca495991b7852b855" := by
  decide

/-! ## AES: GF(2^8) and S-box lemmas -/

namespace Aes

theorem xtime_lt (a : Nat) : xtime a < 256 := by
  have h1 : (a <<< 1) &&& 0xFF ≤ 0xFF := Nat.and_le_right
  have he : xtime a =
      if a &&& 0x80 = 0x80 then ((a <<< 1) &&& 0xFF) ^^^ 0x1B
      else (a <<< 1) &&& 0xFF := rfl
  rw [he]
  split
  · exact xor_lt_256 (by omega) (by omega)
  · omega

theorem xtime_xor (x y : Nat) : xtime (x ^^^ y) = xtime x ^^^ xtime y := by
  unfold xtime
  simp only [shiftLeft_xor, Nat.and_xor_distrib_right]
  have hand : ∀ z : Nat, z &&& 0x80 = (z.testBit 7).toNat * 0x80 := by
    intro z
    have h := Nat.and_two_pow z 7
    norm_num at h
    exact h
  rcases hx : x.testBit 7 <;> rcases hy : y.testBit 7 <;>
    simp [hand, hx, hy, Nat.testBit_xor, Nat.xor_assoc, Nat.xor_comm, xor_left_comm,
      xor_cancel_left]

theorem gmulGo_xor :
    ∀ fuel x y b p q,
      gmulGo fuel (x ^^^ y) b (p ^^^ q) = gmulGo fuel x b p ^^^ gmulGo fuel y b q := by
  intro fuel
  induction fuel with
  | zero => intro x y b p q; rfl
  | succ f ih =>
    intro x y b p q
    show gmulGo f (xtime (x ^^^ y)) (b / 2) _ = _
    rw [xtime_xor]
    rcases Nat.mod_two_eq_zero_or_one b with h2 | h2
    · rw [show (if b % 2 = 1 then (p ^^^ q) ^^^ (x ^^^ y) else p ^^^ q) = p ^^^ q by
        rw [if_neg (by omega)]]
      rw [ih]
      show _ = gmulGo f (xtime x) (b / 2) (if b % 2 = 1 then p ^^^ x else p) ^^^
        gmulGo f (xtime y) (b / 2) (if b % 2 = 1 then q ^^^ y else q)
      rw [if_neg (by omega), if_neg (by omega)]
    · rw [show (if b % 2 = 1 then (p ^^^ q) ^^^ (x ^^^ y) else p ^^^ q) =
          (p ^^^ x) ^^^ (q ^^^ y) by
        rw [if_pos h2]
        simp [Nat.xor_assoc, Nat.xor_comm, xor_left_comm]]
      rw [ih]
      show _ = gmulGo f (xtime x) (b / 2) (if b % 2 = 1 then p ^^^ x else p) ^^^
        gmulGo f (xtime y) (b / 2) (if b % 2 = 1 then q ^^^ y else q)
      rw [if_pos h2, if_pos h2]

theorem gmul_xor (x y c : Nat) : gmul (x ^^^ y) c = gmul x c ^^^ gmul y c := by
  unfold gmul
  rw [show gmulGo 8 (x ^^^ y) c 0 = gmulGo 8 (x ^^^ y) c (0 ^^^ 0) from rfl, gmulGo_xor]

theorem gmulGo_lt :
    ∀ fuel a b p, a < 256 → p < 256 → gmulGo fuel a b p < 256 := by
  intro fuel
  induction fuel with
  | zero => intro a b p _ hp; exact hp
  | succ f ih =>
    intro a b p ha hp
    show gmulGo f (xtime a) (b / 2) _ < 256
    apply ih _ _ _ (xtime_lt a)
    split
    · exact xor_lt_256 hp ha
    · exact hp

theorem gmul_lt (a b : Nat) (ha : a < 256) : gmul a b < 256 :=
  gmulGo_lt 8 a b 0 ha (by omega)

theorem sbox_lt (x : Nat) : sbox x < 256 := by
  unfold sbox
  rcases Nat.lt_or_ge x 256 with hx | hx
  · have h : ∀ y < 256, S_BOX.getD y 0 < 256 := by decide
    exact h x hx
  · rw [List.getD_eq_default _ _ (by rw [show S_BOX.length = 256 from rfl]; omega)]
    omega

theorem inv_sbox_sbox {x : Nat} (hx : x < 256) : invSbox (sbox x) = x := by
  have h : ∀ y < 256, invSbox (sbox y) = y := by decide
  exact h x hx

theorem delta0 {x : Nat} (hx : x < 256) :
    gmul (gmul x 2) 14 ^^^ gmul (gmul x 1) 11 ^^^ gmul (gmul x 1) 13 ^^^ gmul (gmul x 3) 9
      = x := by
  have h : ∀ y < 256,
      gmul (gmul y 2) 14 ^^^ gmul (gmul y 1) 11 ^^^ gmul (gmul y 1) 13 ^^^ gmul (gmul y 3) 9
        = y := by decide
  exact h x hx

theorem delta1 {x : Nat} (hx : x < 256) :
    gmul (gmul x 3) 14 ^^^ gmul (gmul x 2) 11 ^^^ gmul (gmul x 1) 13 ^^^ gmul (gmul x 1) 9
      = 0 := by
  have h : ∀ y < 256,
      gmul (gmul y 3) 14 ^^^ gmul (gmul y 2) 11 ^^^ gmul (gmul y 1) 13 ^^^ gmul (gmul y 1) 9
        = 0 := by decide
  exact h x hx

theorem delta2 {x : Nat} (hx : x < 256) :
    gmul (gmul x 1) 14 ^^^ gmul (gmul x 3) 11 ^^^ gmul (gmul x 2) 13 ^^^ gmul (gmul x 1) 9
      = 0 := by
  have h : ∀ y < 256,
      gmul (gmul y 1) 14 ^^^ gmul (gmul y 3) 11 ^^^ gmul (gmul y 2) 13 ^^^ gmul (gmul y 1) 9
        = 0 := by decide
  exact h x hx

theorem delta3 {x : Nat} (hx : x < 256) :
    gmul (gmul x 1) 14 ^^^ gmul (gmul x 1) 11 ^^^ gmul (gmul x 3) 13 ^^^ gmul (gmul x 2) 9
      = 0 := by
  have h : ∀ y < 256,
      gmul (gmul y 1) 14 ^^^ gmul (gmul y 1) 11 ^^^ gmul (gmul y 3) 13 ^^^ gmul (gmul y 2) 9
        = 0 := by decide
  exact h x hx

end Aes

namespace Aes

theorem invMixCol_mixCol (a b c d : Nat)
    (ha : a < 256) (hb : b < 256) (hc : c < 256) (hd : d < 256) :
    invMixCol (mixCol a b c d).1 (mixCol a b c d).2.1
      (mixCol a b c d).2.2.1 (mixCol a b c d).2.2.2 = (a, b, c, d) := by
  simp only [mixCol, invMixCol, gmul_xor, Prod.mk.injEq]
  refine ⟨?_, ?_, ?_, ?_⟩
  · trans ((gmul (gmul a 2) 14 ^^^ gmul (gmul a 1) 11 ^^^ gmul (gmul a 1) 13 ^^^
        gmul (gmul a 3) 9) ^^^
      ((gmul (gmul b 3) 14 ^^^ gmul (gmul b 2) 11 ^^^ gmul (gmul b 1) 13 ^^^
        gmul (gmul b 1) 9) ^^^
      ((gmul (gmul c 1) 14 ^^^ gmul (gmul c 3) 11 ^^^ gmul (gmul c 2) 13 ^^^
        gmul (gmul c 1) 9) ^^^
      (gmul (gmul d 1) 14 ^^^ gmul (gmul d 1) 11 ^^^ gmul (gmul d 3) 13 ^^^
        gmul (gmul d 2) 9))))
    · ac_rfl
    · rw [delta0 ha, delta1 hb, delta2 hc, delta3 hd]
      simp
  · trans ((gmul (gmul a 1) 14 ^^^ gmul (gmul a 1) 11 ^^^ gmul (gmul a 3) 13 ^^^
        gmul (gmul a 2) 9) ^^^
      ((gmul (gmul b 2) 14 ^^^ gmul (gmul b 1) 11 ^^^ gmul (gmul b 1) 13 ^^^
        gmul (gmul b 3) 9) ^^^
      ((gmul (gmul c 3) 14 ^^^ gmul (gmul c 2) 11 ^^^ gmul (gmul c 1) 13 ^^^
        gmul (gmul c 1) 9) ^^^
      (gmul (gmul d 1) 14 ^^^ gmul (gmul d 3) 11 ^^^ gmul (gmul d 2) 13 ^^^
        gmul (gmul d 1) 9))))
    · ac_rfl
    · rw [delta3 ha, delta0 hb, delta1 hc, delta2 hd]
      simp
  · trans ((gmul (gmul a 1) 14 ^^^ gmul (gmul a 3) 11 ^^^ gmul (gmul a 2) 13 ^^^
        gmul (gmul a 1) 9) ^^^
      ((gmul (gmul b 1) 14 ^^^ gmul (gmul b 1) 11 ^^^ gmul (gmul b 3) 13 ^^^
        gmul (gmul b 2) 9) ^^^
      ((gmul (gmul c 2) 14 ^^^ gmul (gmul c 1) 11 ^^^ gmul (gmul c 1) 13 ^^^
        gmul (gmul c 3) 9) ^^^
      (gmul (gmul d 3) 14 ^^^ gmul (gmul d 2) 11 ^^^ gmul (gmul d 1) 13 ^^^
        gmul (gmul d 1) 9))))
    · ac_rfl
    · rw [delta2 ha, delta3 hb, delta0 hc, delta1 hd]
      simp
  · trans ((gmul (gmul a 3) 14 ^^^ gmul (gmul a 2) 11 ^^^ gmul (gmul a 1) 13 ^^^
        gmul (gmul a 1) 9) ^^^
      ((gmul (gmul b 1) 14 ^^^ gmul (gmul b 3) 11 ^^^ gmul (gmul b 2) 13 ^^^
        gmul (gmul b 1) 9) ^^^
      ((gmul (gmul c 1) 14 ^^^ gmul (gmul c 1) 11 ^^^ gmul (gmul c 3) 13 ^^^
        gmul (gmul c 2) 9) ^^^
      (gmul (gmul d 2) 14 ^^^ gmul (gmul d 1) 11 ^^^ gmul (gmul d 1) 13 ^^^
        gmul (gmul d 3) 9))))
    · ac_rfl
    · rw [delta1 ha, delta2 hb, delta3 hc, delta0 hd]
      simp

end Aes

namespace Aes

theorem invShiftRows_shiftRows (s : AesState) : invShiftRows (shiftRows s) = s := rfl

theorem invSubBytes_subBytes (s : AesState) (h : GoodState s) :
    invSubBytes (subBytes s) = s := by
  cases s
  unfold GoodState at h
  obtain ⟨h00, h01, h02, h03, h10, h11, h12, h13,
    h20, h21, h22, h23, h30, h31, h32, h33⟩ := h
  simp only [subBytes, invSubBytes, AesState.mk.injEq]
  exact ⟨inv_sbox_sbox h00, inv_sbox_sbox h01, inv_sbox_sbox h02, inv_sbox_sbox h03,
    inv_sbox_sbox h10, inv_sbox_sbox h11, inv_sbox_sbox h12, inv_sbox_sbox h13,
    inv_sbox_sbox h20, inv_sbox_sbox h21, inv_sbox_sbox h22, inv_sbox_sbox h23,
    inv_sbox_sbox h30, inv_sbox_sbox h31, inv_sbox_sbox h32, inv_sbox_sbox h33⟩

theorem addRoundKey_invol (s : AesState) (k : List Nat) :
    addRoundKey (addRoundKey s k) k = s := by
  cases s
  simp only [addRoundKey, xor_invol]

theorem invMixColumns_mixColumns (s : AesState) (h : GoodState s) :
    invMixColumns (mixColumns s) = s := by
  cases s with
  | mk a00 a01 a02 a03 a10 a11 a12 a13 a20 a21 a22 a23 a30 a31 a32 a33 =>
    unfold GoodState at h
    obtain ⟨h00, h01, h02, h03, h10, h11, h12, h13,
      h20, h21, h22, h23, h30, h31, h32, h33⟩ := h
    have hc0 := invMixCol_mixCol a00 a10 a20 a30 h00 h10 h20 h30
    have hc1 := invMixCol_mixCol a01 a11 a21 a31 h01 h11 h21 h31
    have hc2 := invMixCol_mixCol a02 a12 a22 a32 h02 h12 h22 h32
    have hc3 := invMixCol_mixCol a03 a13 a23 a33 h03 h13 h23 h33
    simp only [mixColumns, invMixColumns]
    rw [hc0, hc1, hc2, hc3]

theorem xor4_lt {a b c d : Nat} (ha : a < 256) (hb : b < 256) (hc : c < 256)
    (hd : d < 256) : a ^^^ b ^^^ c ^^^ d < 256 :=
  xor_lt_256 (xor_lt_256 (xor_lt_256 ha hb) hc) hd

theorem mixCol_lt (a b c d : Nat) (ha : a < 256) (hb : b < 256) (hc : c < 256)
    (hd : d < 256) :
    (mixCol a b c d).1 < 256 ∧ (mixCol a b c d).2.1 < 256 ∧
      (mixCol a b c d).2.2.1 < 256 ∧ (mixCol a b c d).2.2.2 < 256 := by
  simp only [mixCol]
  exact ⟨xor4_lt (gmul_lt _ _ ha) (gmul_lt _ _ hb) (gmul_lt _ _ hc) (gmul_lt _ _ hd),
    xor4_lt (gmul_lt _ _ ha) (gmul_lt _ _ hb) (gmul_lt _ _ hc) (gmul_lt _ _ hd),
    xor4_lt (gmul_lt _ _ ha) (gmul_lt _ _ hb) (gmul_lt _ _ hc) (gmul_lt _ _ hd),
    xor4_lt (gmul_lt _ _ ha) (gmul_lt _ _ hb) (gmul_lt _ _ hc) (gmul_lt _ _ hd)⟩

theorem goodState_subBytes (s : AesState) : GoodState (subBytes s) := by
  cases s
  exact ⟨sbox_lt _, sbox_lt _, sbox_lt _, sbox_lt _, sbox_lt _, sbox_lt _, sbox_lt _,
    sbox_lt _, sbox_lt _, sbox_lt _, sbox_lt _, sbox_lt _, sbox_lt _, sbox_lt _,
    sbox_lt _, sbox_lt _⟩

theorem goodState_shiftRows (s : AesState) (h : GoodState s) :
    GoodState (shiftRows s) := by
  cases s
  unfold GoodState at h ⊢
  obtain ⟨h00, h01, h02, h03, h10, h11, h12, h13,
    h20, h21, h22, h23, h30, h31, h32, h33⟩ := h
  exact ⟨h00, h01, h02, h03, h11, h12, h13, h10, h22, h23, h20, h21, h33, h30, h31, h32⟩

theorem goodState_mixColumns (s : AesState) (h : GoodState s) :
    GoodState (mixColumns s) := by
  cases s with
  | mk a00 a01 a02 a03 a10 a11 a12 a13 a20 a21 a22 a23 a30 a31 a32 a33 =>
    unfold GoodState at h
    obtain ⟨h00, h01, h02, h03, h10, h11, h12, h13,
      h20, h21, h22, h23, h30, h31, h32, h33⟩ := h
    obtain ⟨g00, g10, g20, g30⟩ := mixCol_lt a00 a10 a20 a30 h00 h10 h20 h30
    obtain ⟨g01, g11, g21, g31⟩ := mixCol_lt a01 a11 a21 a31 h01 h11 h21 h31
    obtain ⟨g02, g12, g22, g32⟩ := mixCol_lt a02 a12 a22 a32 h02 h12 h22 h32
    obtain ⟨g03, g13, g23, g33⟩ := mixCol_lt a03 a13 a23 a33 h03 h13 h23 h33
    exact ⟨g00, g01, g02, g03, g10, g11, g12, g13, g20, g21, g22, g23, g30, g31, g32, g33⟩

theorem goodState_addRoundKey (s : AesState) (k : List Nat) (h : GoodState s)
    (hk : ∀ x ∈ k, x < 256) : GoodState (addRoundKey s k) := by
  cases s
  unfold GoodState at h ⊢
  obtain ⟨h00, h01, h02, h03, h10, h11, h12, h13,
    h20, h21, h22, h23, h30, h31, h32, h33⟩ := h
  exact ⟨xor_lt_256 h00 (getD_lt_256 hk _), xor_lt_256 h01 (getD_lt_256 hk _),
    xor_lt_256 h02 (getD_lt_256 hk _), xor_lt_256 h03 (getD_lt_256 hk _),
    xor_lt_256 h10 (getD_lt_256 hk _), xor_lt_256 h11 (getD_lt_256 hk _),
    xor_lt_256 h12 (getD_lt_256 hk _), xor_lt_256 h13 (getD_lt_256 hk _),
    xor_lt_256 h20 (getD_lt_256 hk _), xor_lt_256 h21 (getD_lt_256 hk _),
    xor_lt_256 h22 (getD_lt_256 hk _), xor_lt_256 h23 (getD_lt_256 hk _),
    xor_lt_256 h30 (getD_lt_256 hk _), xor_lt_256 h31 (getD_lt_256 hk _),
    xor_lt_256 h32 (getD_lt_256 hk _), xor_lt_256 h33 (getD_lt_256 hk _)⟩

theorem goodState_bytesToState (l : List Nat) (h : ∀ x ∈ l, x < 256) :
    GoodState (bytesToState l) :=
  ⟨getD_lt_256 h _, getD_lt_256 h _, getD_lt_256 h _, getD_lt_256 h _,
   getD_lt_256 h _, getD_lt_256 h _, getD_lt_256 h _, getD_lt_256 h _,
   getD_lt_256 h _, getD_lt_256 h _, getD_lt_256 h _, getD_lt_256 h _,
   getD_lt_256 h _, getD_lt_256 h _, getD_lt_256 h _, getD_lt_256 h _⟩

end Aes

namespace Aes

theorem encryptRounds_good :
    ∀ ks s, (∀ rk ∈ ks, ∀ x ∈ rk, x < 256) → GoodState s →
      GoodState (encryptRounds ks s) := by
  intro ks
  induction ks with
  | nil => intro s _ hs; exact hs
  | cons k rest ih =>
    intro s hk hs
    show GoodState (encryptRounds rest _)
    apply ih
    · intro rk hrk; exact hk rk (by simp [hrk])
    · exact goodState_addRoundKey _ _
        (goodState_mixColumns _ (goodState_shiftRows _ (goodState_subBytes s)))
        (hk k (by simp))

theorem decryptRounds_append (l1 l2 : List (List Nat)) :
    ∀ s, decryptRounds (l1 ++ l2) s = decryptRounds l2 (decryptRounds l1 s) := by
  induction l1 with
  | nil => intro s; rfl
  | cons k rest ih => intro s; exact ih _

theorem decryptRounds_reverse_encryptRounds :
    ∀ ks s, (∀ rk ∈ ks, ∀ x ∈ rk, x < 256) → GoodState s →
      decryptRounds ks.reverse (shiftRows (subBytes (encryptRounds ks s))) =
        shiftRows (subBytes s) := by
  intro ks
  induction ks with
  | nil => intro s _ _; rfl
  | cons k rest ih =>
    intro s hk hs
    have hkk : ∀ x ∈ k, x < 256 := hk k (by simp)
    have hrest : ∀ rk ∈ rest, ∀ x ∈ rk, x < 256 := fun rk hrk => hk rk (by simp [hrk])
    have hE1 : GoodState (addRoundKey (mixColumns (shiftRows (subBytes s))) k) :=
      goodState_addRoundKey _ _
        (goodState_mixColumns _ (goodState_shiftRows _ (goodState_subBytes s))) hkk
    show decryptRounds (k :: rest).reverse
      (shiftRows (subBytes (encryptRounds rest
        (addRoundKey (mixColumns (shiftRows (subBytes s))) k)))) = shiftRows (subBytes s)
    rw [List.reverse_cons, decryptRounds_append, ih _ hrest hE1]
    show invMixColumns (addRoundKey (invSubBytes (invShiftRows (shiftRows (subBytes
      (addRoundKey (mixColumns (shiftRows (subBytes s))) k))))) k) = shiftRows (subBytes s)
    rw [invShiftRows_shiftRows, invSubBytes_subBytes _ hE1, addRoundKey_invol,
      invMixColumns_mixColumns _ (goodState_shiftRows _ (goodState_subBytes s))]

theorem keyExpansion_good (key : List Nat) (rks : List (List Nat))
    (h : keyExpansion key = some rks) : ∀ rk ∈ rks, ∀ x ∈ rk, x < 256 := by
  unfold keyExpansion at h
  split at h
  · simp only [Option.some.injEq] at h
    subst h
    intro rk hrk
    simp only [List.mem_map] at hrk
    obtain ⟨i, _, hi⟩ := hrk
    subst hi
    intro x hx
    simp only [List.mem_flatten, List.mem_map] at hx
    obtain ⟨l, ⟨j, _, hj⟩, hxl⟩ := hx
    subst hj
    exact mem_intToBytes_lt _ _ _ hxl
  · exact absurd h (by simp)

theorem length_stateToBytes (s : AesState) : (stateToBytes s).length = 16 := rfl

theorem bytesToState_stateToBytes (s : AesState) : bytesToState (stateToBytes s) = s := rfl

theorem stateToBytes_bytesToState (l : List Nat) (h : l.length = 16) :
    stateToBytes (bytesToState l) = l := by
  rcases l with _ | ⟨a0, _ | ⟨a1, _ | ⟨a2, _ | ⟨a3, _ | ⟨a4, _ | ⟨a5, _ | ⟨a6, _ |
    ⟨a7, _ | ⟨a8, _ | ⟨a9, _ | ⟨a10, _ | ⟨a11, _ | ⟨a12, _ | ⟨a13, _ | ⟨a14, _ |
    ⟨a15, rest⟩⟩⟩⟩⟩⟩⟩⟩⟩⟩⟩⟩⟩⟩⟩⟩ <;>
    simp only [List.length_cons, List.length_nil] at h <;> try omega
  cases rest with
  | nil => rfl
  | cons b t => simp at h

end Aes

/-- C2: for every 16-byte block and every 16-, 24-, or 32-byte key,
`decrypt_block (encrypt_block p k) k = p`: the decryption loop applies the
inverse transforms with the round keys in reverse order, undoing each
encryption round exactly. -/
theorem C2_aes_roundtrip (block key : List Nat) (hb : block.length = 16)
    (hkey : key.length = 16 ∨ key.length = 24 ∨ key.length = 32)
    (hbb : ∀ x ∈ block, x < 256) (hkb : ∀ x ∈ key, x < 256) :
    ∃ ct, Aes.encrypt_block block key = some ct ∧
      Aes.decrypt_block ct key = some block := by
  obtain ⟨rks, hrks⟩ : ∃ rks, Aes.keyExpansion key = some rks :=
    ⟨_, by unfold Aes.keyExpansion; rw [if_pos hkey]⟩
  have hgood := Aes.keyExpansion_good key rks hrks
  set Nr := rks.length - 1 with hNr
  set mid := (rks.drop 1).take (Nr - 1) with hmid
  have hmidgood : ∀ rk ∈ mid, ∀ x ∈ rk, x < 256 := by
    intro rk hrk
    apply hgood
    rw [hmid] at hrk
    exact List.mem_of_mem_drop (List.mem_of_mem_take hrk)
  have hk0 : ∀ x ∈ rks.getD 0 [], x < 256 := by
    rcases Nat.lt_or_ge 0 rks.length with hl | hl
    · rw [List.getD_eq_getElem?_getD, List.getElem?_eq_getElem hl]
      exact hgood _ (List.getElem_mem hl)
    · rw [List.getD_eq_default _ _ hl]
      intro x hx
      simp at hx
  have hkNr : ∀ x ∈ rks.getD Nr [], x < 256 := by
    rcases Nat.lt_or_ge Nr rks.length with hl | hl
    · rw [List.getD_eq_getElem?_getD, List.getElem?_eq_getElem hl]
      exact hgood _ (List.getElem_mem hl)
    · rw [List.getD_eq_default _ _ hl]
      intro x hx
      simp at hx
  have hs0good : Aes.GoodState (Aes.addRoundKey (Aes.bytesToState block) (rks.getD 0 [])) :=
    Aes.goodState_addRoundKey _ _ (Aes.goodState_bytesToState block hbb) hk0
  have henc : Aes.encrypt_block block key =
      some (Aes.stateToBytes (Aes.addRoundKey (Aes.shiftRows (Aes.subBytes
        (Aes.encryptRounds mid
          (Aes.addRoundKey (Aes.bytesToState block) (rks.getD 0 [])))))
        (rks.getD Nr []))) := by
    unfold Aes.encrypt_block
    rw [if_neg (by omega), hrks]
  have hdec : ∀ Y : Aes.AesState, Aes.decrypt_block (Aes.stateToBytes Y) key =
      some (Aes.stateToBytes (Aes.addRoundKey (Aes.invSubBytes (Aes.invShiftRows
        (Aes.decryptRounds mid.reverse
          (Aes.addRoundKey (Aes.bytesToState (Aes.stateToBytes Y)) (rks.getD Nr [])))))
        (rks.getD 0 []))) := by
    intro Y
    unfold Aes.decrypt_block
    rw [if_neg (by rw [Aes.length_stateToBytes]; omega), hrks]
  refine ⟨_, henc, ?_⟩
  rw [hdec]
  rw [Aes.bytesToState_stateToBytes, Aes.addRoundKey_invol]
  rw [Aes.decryptRounds_reverse_encryptRounds mid _ hmidgood hs0good]
  rw [Aes.invShiftRows_shiftRows, Aes.invSubBytes_subBytes _ hs0good,
    Aes.addRoundKey_invol, Aes.stateToBytes_bytesToState block hb]

/-- C2 witness: the all-zero block and all-zero 16-byte key. -/
theorem C2_witness :
    ∃ ct, Aes.encrypt_block (List.replicate 16 0) (List.replicate 16 0) = some ct ∧
      Aes.decrypt_block ct (List.replicate 16 0) = some (List.replicate 16 0) :=
  C2_aes_roundtrip (List.replicate 16 0) (List.replicate 16 0) (by simp)
    (Or.inl (by simp)) (by intro x hx; simp at hx; omega)
    (by intro x hx; simp at hx; omega)
